import Mathlib

/-!
# Verification of the reference-code hierarchy inference engine

Shallow embedding of the hierarchy scripts of this repository
(`scripts/fix_all_framework_display_order.py`,
`scripts/fix_display_order_hierarchy.py`,
`scripts/fix_all_framework_parent_hierarchy.py`,
`scripts/fix_hipaa_parent_hierarchy.py`,
`scripts/fix_iso_complete.py`).

Reference codes are modelled as `List Char` (Python `str`; all reference
codes are ASCII).  Database rows become records, the per-framework SQL
passes become pure functions on lists of records.  `re` patterns that the
scripts use are each embedded as a hand-written deterministic matcher on
`List Char`; `.` in a pattern is modelled as "any character except
newline" exactly as in Python, and `$` is modelled as end of input.
-/

namespace GRC

/-! ## Natural sort key (`natural_sort_key` in
`fix_all_framework_display_order.py`, `fix_display_order_hierarchy.py`,
`fix_iso_complete.py`; all three copies are textually identical). -/

/-- Prepend a character to a run decomposition, merging it into the first
run when the digit-ness matches. -/
def consRun (c : Char) : List (Bool × List Char) → List (Bool × List Char)
  | [] => [(c.isDigit, [c])]
  | (b, r) :: rest =>
    if c.isDigit = b then (b, c :: r) :: rest
    else (c.isDigit, [c]) :: (b, r) :: rest

/-- `re.split(r'(\d+)', s)` with empty pieces dropped (the Python code
skips falsy parts) yields exactly the maximal runs of digits and of
non-digits of `s`, in order.  Each run is tagged with `true` iff it is a
digit run. -/
def splitRuns : List Char → List (Bool × List Char)
  | [] => []
  | c :: cs => consRun c (splitRuns cs)

/-- `int(part)` on a digit run (Python parses the run as a base-10
integer, so leading zeros do not affect the value). -/
def natVal (r : List Char) : Nat :=
  r.foldl (fun a c => a * 10 + (c.toNat - 48)) 0

/-- One component of the sort key: Python's
`(0, int(part), '')` / `(1, 0, part.lower())` / `(2, 0, '')` triples. -/
abbrev KeyItem := Nat × Nat × List Char

/-- The un-padded key components of a reference code. -/
def keyItems (s : List Char) : List KeyItem :=
  (splitRuns s).map fun br =>
    if br.1 then (0, natVal br.2, ([] : List Char))
    else (1, 0, br.2.map Char.toLower)

/-- `natural_sort_key`: the run components, padded at the end with the
sentinel `(2, 0, '')` until the tuple has at least 10 components. -/
def natural_sort_key (s : List Char) : List KeyItem :=
  keyItems s ++ List.replicate (10 - (keyItems s).length) (2, 0, ([] : List Char))

/-! Python compares the resulting tuples lexicographically; strings inside
them are compared by code point.  `listLtB lt` is Python's sequence `<`
for element order `lt` (a proper prefix is smaller). -/

def listLtB (lt : α → α → Bool) : List α → List α → Bool
  | _, [] => false
  | [], _ :: _ => true
  | a :: as, b :: bs =>
    if lt a b then true
    else if lt b a then false
    else listLtB lt as bs

def charLtB (a b : Char) : Bool := a.toNat < b.toNat

def strLtB : List Char → List Char → Bool := listLtB charLtB

def itemLtB : KeyItem → KeyItem → Bool
  | (r1, v1, t1), (r2, v2, t2) =>
    if r1 < r2 then true
    else if r2 < r1 then false
    else if v1 < v2 then true
    else if v2 < v1 then false
    else strLtB t1 t2

/-- Python `<` on two natural sort keys. -/
def keyLtB (a b : List KeyItem) : Bool := listLtB itemLtB a b

/-! ## Stable sorting

Python's `list.sort`/`sorted` are stable sorts; any stable sort with the
same "may `a` stay before `b`" relation produces the identical output
list, so we model them with a stable insertion sort.  `le a b` means: `a`
(earlier in the input) may remain before `b`. -/

def insertLe (le : α → α → Bool) (a : α) : List α → List α
  | [] => [a]
  | b :: bs => if le a b then a :: b :: bs else b :: insertLe le a bs

def sortLe (le : α → α → Bool) (l : List α) : List α :=
  l.foldr (insertLe le) []

/-- Python `sorted` on plain strings: code-point lexicographic order. -/
def strLeB (a b : List Char) : Bool := !(strLtB b a)

/-! ## Data model

A row of `external_controls` restricted to the columns the hierarchy
scripts read and write. -/

structure Control where
  id : Nat
  ref : List Char
  parent : Option Nat
  descr : List Char
  is_group : Option Bool
  level : Option (List Char)
  dorder : Option Nat
deriving DecidableEq, Repr

/-- The projection the display-order scripts query
(`SELECT id, ref_code, parent_id`). -/
structure DCtrl where
  id : Nat
  ref : List Char
  parent : Option Nat
deriving DecidableEq, Repr

def projD (c : Control) : DCtrl := ⟨c.id, c.ref, c.parent⟩

/-! ## Display-order sequencer
(`process_framework` in `fix_display_order_hierarchy.py`; the identical
traversal also ends `process_framework` in `fix_iso_complete.py`).

The Python recursion carries no fuel; it always terminates because the
part of the graph reachable from the roots is a forest (every node has a
single `parent_id`, so a path from a root never revisits a node and has
depth at most the number of rows).  The embedding therefore runs the
traversal with fuel `l.length`, which is never exhausted. -/

/-- `children_map[...].sort(key=natural_sort_key)` — Python's stable sort
keeps `a` before `b` unless `key(b) < key(a)`. -/
def childLe (a b : DCtrl) : Bool :=
  !(keyLtB (natural_sort_key b.ref) (natural_sort_key a.ref))

/-- `children_map[pid]`, sorted by natural key (insertion order is the
load order of the rows). -/
def childrenOf (l : List DCtrl) (pid : Nat) : List DCtrl :=
  sortLe childLe (l.filter fun c => c.parent = some pid)

/-- The root list, sorted by natural key. -/
def rootsOf (l : List DCtrl) : List DCtrl :=
  sortLe childLe (l.filter fun c => c.parent = none)

/-- `traverse(control)`: emit the node, then recursively its children.
The Python code appends `(order_counter, id)` pairs; we emit the visited
nodes in order and pair them with their positions afterwards, which is
the same data. -/
def traverseAux (cm : Nat → List DCtrl) : Nat → DCtrl → List DCtrl → List DCtrl
  | 0, _, acc => acc
  | fuel + 1, c, acc =>
    (cm c.id).foldl (fun a ch => traverseAux cm fuel ch a) (acc ++ [c])

/-- `for root in roots: traverse(root)` — the full visit sequence. -/
def visitOrder (l : List DCtrl) : List DCtrl :=
  (rootsOf l).foldl (fun a r => traverseAux (childrenOf l) l.length r a) []

/-- The `updates` list: `(display_order, id)` pairs. -/
def displayUpdates (l : List DCtrl) : List (Nat × Nat) :=
  (visitOrder l).enum.map fun ic => (ic.1, ic.2.id)

/-- Effect of `executemany("UPDATE ... SET display_order = %s WHERE id = %s")`:
the updates are applied in order, so for a given id the last pair wins. -/
def lookupLast (ups : List (Nat × Nat)) (i : Nat) : Option Nat :=
  (ups.reverse.find? fun u => u.2 = i).map (·.1)

/-- The display order a node id ends up with (`none` if never visited). -/
def assignedOrder (l : List DCtrl) (i : Nat) : Option Nat :=
  lookupLast (displayUpdates l) i

/-- Apply the display-order updates to one row. -/
def dispFix (ups : List (Nat × Nat)) (c : Control) : Control :=
  match lookupLast ups c.id with
  | some o => { c with dorder := some o }
  | none => c

/-- The display-order pass over full rows: compute the updates from the
`(id, ref_code, parent_id)` projection and apply them. -/
def applyDisplay (l : List Control) : List Control :=
  l.map (dispFix (displayUpdates (l.map projD)))

/-- Chains of `parent_id` edges: `ChainN l c x n` holds when `x` is
reached from `c` by `n` child steps inside `l`. -/
inductive ChainN (l : List DCtrl) : DCtrl → DCtrl → Nat → Prop
  | refl (c : DCtrl) : ChainN l c c 0
  | head {c m x : DCtrl} {n : Nat} :
      m ∈ l → m.parent = some c.id → ChainN l m x n → ChainN l c x (n + 1)

/-- `d` is a strict descendant of `c` (one or more child steps). -/
def Descendant (l : List DCtrl) (c d : DCtrl) : Prop :=
  ∃ n, ChainN l c d (n + 1)

/-! ## Parent-inference matchers

Each `re.match` pattern of the scripts, embedded as a deterministic
matcher.  All patterns have the form
`^<prefix>\(<class>\)$` or are fully anchored character classes, so the
decomposition at the last `(` of the string is unique. -/

/-- Not a parenthesis (the content class of a trailing group can never
contain one). -/
def notParen (c : Char) : Bool := c ≠ '(' ∧ c ≠ ')'

/-- Helper of `splitTrailingParen`, working on the reversed string. -/
def splitTPAux : List Char → Option (List Char × List Char)
  | [] => none
  | c0 :: t =>
    if c0 = ')' then
      match t.dropWhile notParen with
      | [] => none
      | c1 :: pre =>
        if c1 = '(' then some (pre.reverse, (t.takeWhile notParen).reverse)
        else none
    else none

/-- Split `s` as `pre ++ "(" ++ g ++ ")"` where `g` is the content of a
final parenthetical group (no nested parens inside `g`): scan from the
right over the closing `)`, take the paren-free content, and expect the
matching `(`.  This is the unique decomposition the anchored patterns
`...\(<class>\)$` can use, since no character class includes a paren. -/
def splitTrailingParen (s : List Char) : Option (List Char × List Char) :=
  splitTPAux s.reverse

/-- No newline: Python's `.` does not match `\n`. -/
def noNL (s : List Char) : Bool := s.all fun c => c ≠ '\n'

/-- `\d+` content. -/
def isDigitRun (g : List Char) : Bool := !g.isEmpty && g.all Char.isDigit

/-- `[A-Z]` content. -/
def isSingleUpper : List Char → Bool
  | [c] => c.isUpper
  | _ => false

/-- `[a-z]` content. -/
def isSingleLower : List Char → Bool
  | [c] => c.isLower
  | _ => false

/-- `[ivx]+` content. -/
def isRomanRun (g : List Char) : Bool :=
  !g.isEmpty && g.all fun c => c = 'i' ∨ c = 'v' ∨ c = 'x'

/-- `^\d+\.\d+$`: a maximal leading digit run, a dot, then only digits.
(`dropWhile` is the remainder after the maximal leading run.) -/
def isDottedPair (s : List Char) : Bool :=
  match s.takeWhile Char.isDigit, s.dropWhile Char.isDigit with
  | _ :: _, '.' :: rest => !rest.isEmpty && rest.all Char.isDigit
  | _, _ => false

/-- `get_immediate_parent` of `fix_hipaa_parent_hierarchy.py`: try
`^(.+)\(\d+\)$`, then `^(.+)\([A-Z]\)$`, then `^(.+)\([ivx]+\)$`, then
`^(\d+\.\d+)\([a-z]\)$`, in that order. -/
def get_immediate_parent (s : List Char) : Option (List Char) :=
  match splitTrailingParen s with
  | none => none
  | some (pre, g) =>
    if isDigitRun g && noNL pre && !pre.isEmpty then some pre
    else if isSingleUpper g && noNL pre && !pre.isEmpty then some pre
    else if isRomanRun g && noNL pre && !pre.isEmpty then some pre
    else if isSingleLower g && isDottedPair pre then some pre
    else none

/-- `get_parent_ref_hipaa` of `fix_all_framework_parent_hierarchy.py`:
the same first three rules, then `^(.+\([a-z]\))\(\d+\)$`, then
`^(\d+\.\d+)\([a-z]\)$`. -/
def get_parent_ref_hipaa (s : List Char) : Option (List Char) :=
  match splitTrailingParen s with
  | none => none
  | some (pre, g) =>
    if isDigitRun g && noNL pre && !pre.isEmpty then some pre
    else if isSingleUpper g && noNL pre && !pre.isEmpty then some pre
    else if isRomanRun g && noNL pre && !pre.isEmpty then some pre
    else if isDigitRun g &&
        (match splitTrailingParen pre with
          | some (p2, g2) => isSingleLower g2 && noNL p2 && !p2.isEmpty
          | none => false) then some pre
    else if isSingleLower g && isDottedPair pre then some pre
    else none

/-- `get_parent_ref_nist_800_53`: `^([A-Z]{2}-\d+)\(\d+\)$`. -/
def isBaseControl : List Char → Bool
  | a :: b :: '-' :: rest => a.isUpper && b.isUpper && !rest.isEmpty && rest.all Char.isDigit
  | _ => false

def get_parent_ref_nist_800_53 (s : List Char) : Option (List Char) :=
  match splitTrailingParen s with
  | some (pre, g) => if isDigitRun g && isBaseControl pre then some pre else none
  | none => none

/-- `get_parent_ref_cis_csc`: `^(\d+)\.\d+$`, returning the leading
digit run. -/
def get_parent_ref_cis_csc (s : List Char) : Option (List Char) :=
  match s.takeWhile Char.isDigit, s.dropWhile Char.isDigit with
  | _ :: _, '.' :: rest =>
    if !rest.isEmpty && rest.all Char.isDigit then some (s.takeWhile Char.isDigit)
    else none
  | _, _ => none

/-- `get_all_parent_refs` (in `fix_hipaa_parent_hierarchy.py`, and with
the ISO rule in `fix_iso_complete.py`): repeatedly apply the
parent-inference rule until it returns `None`.  The Python loop is
un-fuelled (`while True`); we run it with fuel `s.length + 1`, which is
shown (theorem `C8_resolver_terminates`) to reach the fixpoint because
every inferred parent is strictly shorter. -/
def get_all_parent_refs_aux (gp : List Char → Option (List Char)) :
    Nat → List Char → List (List Char)
  | 0, _ => []
  | fuel + 1, cur =>
    match gp cur with
    | none => []
    | some p => p :: get_all_parent_refs_aux gp fuel p

def get_all_parent_refs (s : List Char) : List (List Char) :=
  get_all_parent_refs_aux get_immediate_parent (s.length + 1) s

/-! ## Hierarchy assignment engine
(`process_framework`, `create_domain_groups` and `set_hierarchy_levels`
in `fix_all_framework_parent_hierarchy.py`, for one framework).

The per-framework configuration of `FRAMEWORK_CONFIGS` is the pair of
the parent-inference rule and the group-synthesis rule (the matching
branch of `create_domain_groups`; the empty function for frameworks with
`needs_groups = False`). -/

structure EngineCfg where
  getParent : List Char → Option (List Char)
  groupRefs : List Char → List (List Char)

/-- The CIS branch of `create_domain_groups`: `^(\d+)\.\d+$` yields the
leading number as a needed group. -/
def cisGroupRefs (s : List Char) : List (List Char) :=
  match get_parent_ref_cis_csc s with
  | some g => [g]
  | none => []

def cisCfg : EngineCfg := ⟨get_parent_ref_cis_csc, cisGroupRefs⟩

def nist80053Cfg : EngineCfg := ⟨get_parent_ref_nist_800_53, fun _ => []⟩

def refsOf (l : List Control) : List (List Char) := l.map (·.ref)

/-- `control_map = {c['ref_code']: c['id'] for c in controls}` — for a
duplicated ref_code the last row wins, hence the reversed search. -/
def controlMapFind (l : List Control) (r : List Char) : Option Nat :=
  (l.reverse.find? fun c => c.ref = r).map (·.id)

def maxId (l : List Control) : Nat := l.foldr (fun c m => max c.id m) 0

/-- Set-ness of Python's `set`: drop duplicates (the result is sorted
afterwards, so which duplicate survives is irrelevant). -/
def dedupRefs : List (List Char) → List (List Char)
  | [] => []
  | r :: rs => if r ∈ rs then dedupRefs rs else r :: dedupRefs rs

/-- `sorted(groups_to_create)` where
`groups_to_create = {implied refs} - set(control_map.keys())`. -/
def groupsToCreate (cfg : EngineCfg) (l : List Control) : List (List Char) :=
  sortLe strLeB (dedupRefs ((l.flatMap fun c => cfg.groupRefs c.ref).filter
    fun r => decide (r ∉ refsOf l)))

/-- `create_domain_groups`: insert one new group row per missing implied
ref, `is_group = true`, `hierarchy_level = 'domain'`,
description `f"Group: {ref}"`; ids are fresh (database sequence, modelled
as successive ids above the current maximum). -/
def synthStep (cfg : EngineCfg) (l : List Control) : List Control :=
  l ++ (groupsToCreate cfg l).enum.map fun ir =>
    { id := maxId l + 1 + ir.1, ref := ir.2, parent := none,
      descr := "Group: ".data ++ ir.2, is_group := some true,
      level := some "domain".data, dorder := none }

/-- Parent assignment for one row: look up the inferred parent ref in the
control map; if absent, the row is left untouched (the source also skips
the write when the parent is already current, which produces the same
state). -/
def assignParentsFix (cfg : EngineCfg) (l : List Control) (c : Control) : Control :=
  match cfg.getParent c.ref with
  | none => c
  | some pref =>
    match controlMapFind l pref with
    | none => c
    | some pid => { c with parent := some pid }

def assignParents (cfg : EngineCfg) (l : List Control) : List Control :=
  l.map (assignParentsFix cfg l)

/-- `id IN (SELECT DISTINCT parent_id FROM external_controls WHERE
parent_id IS NOT NULL)`. -/
def hasChildIn (l : List Control) (i : Nat) : Bool :=
  l.any fun d => d.parent = some i

/-- `set_hierarchy_levels`, effect on one row: rows with children get
`is_group = true` and a defaulted level when `is_group IS NOT true`;
childless rows get `is_group = false, level = 'control'` only when
`is_group` is not true *and* `hierarchy_level IS NULL`. -/
def hierFix (l : List Control) (c : Control) : Control :=
  if hasChildIn l c.id then
    if c.is_group ≠ some true then
      { c with is_group := some true, level := some (c.level.getD "section".data) }
    else c
  else
    if (c.is_group = none ∨ c.is_group = some false) ∧ c.level = none then
      { c with is_group := some false, level := some "control".data }
    else c

def setHierarchyLevels (l : List Control) : List Control := l.map (hierFix l)

/-- One full engine run for a framework: synthesize groups, assign
parents, derive `is_group`/`hierarchy_level`, assign display order. -/
def engineRun (cfg : EngineCfg) (l : List Control) : List Control :=
  applyDisplay (setHierarchyLevels (assignParents cfg (synthStep cfg l)))

/-! ## The HIPAA script (`fix_hipaa_parent_hierarchy.py`, `main`) -/

/-- Group synthesis of the HIPAA script: the union of the full ancestor
chains of all rows, minus the existing refs, created in `sorted(...)`
(lexicographic) order with `is_group = true`,
`hierarchy_level = 'section'` and description `f"HIPAA Section {ref}"`. -/
def hipaaSynth (l : List Control) : List Control :=
  l ++ (sortLe strLeB (dedupRefs
      ((l.flatMap fun c => get_all_parent_refs c.ref).filter
        fun r => decide (r ∉ refsOf l)))).enum.map fun ir =>
    { id := maxId l + 1 + ir.1, ref := ir.2, parent := none,
      descr := "HIPAA Section ".data ++ ir.2, is_group := some true,
      level := some "section".data, dorder := none }

def hipaaAssignParents (l : List Control) : List Control :=
  l.map fun c =>
    match get_immediate_parent c.ref with
    | none => c
    | some pref =>
      match controlMapFind l pref with
      | none => c
      | some pid => { c with parent := some pid }

/-- The two closing `UPDATE`s of the HIPAA script: rows with children
become `(is_group = true, 'section')`, rows without children
`(is_group = false, 'control')`. -/
def hipaaSetLevels (l : List Control) : List Control :=
  l.map fun c =>
    if hasChildIn l c.id then
      { c with is_group := some true, level := some "section".data }
    else
      { c with is_group := some false, level := some "control".data }

def hipaaRun (l : List Control) : List Control :=
  hipaaSetLevels (hipaaAssignParents (hipaaSynth l))

/-! ### Basic facts about the key order -/

theorem charLtB_irrefl (a : Char) : charLtB a a = false := by
  simp [charLtB]

theorem strLtB_irrefl (a : List Char) : strLtB a a = false := by
  induction a with
  | nil => rfl
  | cons c cs ih =>
    show listLtB charLtB (c :: cs) (c :: cs) = false
    rw [listLtB, charLtB_irrefl]
    simpa [strLtB] using ih

theorem itemLtB_irrefl (a : KeyItem) : itemLtB a a = false := by
  obtain ⟨r, v, t⟩ := a
  simp [itemLtB, strLtB_irrefl]

/-- Lexicographic comparison ignores a common prefix. -/
theorem listLtB_append_left (lt : α → α → Bool)
    (hirr : ∀ a, lt a a = false) (p x y : List α) :
    listLtB lt (p ++ x) (p ++ y) = listLtB lt x y := by
  induction p with
  | nil => rfl
  | cons a p ih =>
    simp only [List.cons_append, listLtB, hirr a, if_false]
    exact ih

@[simp] theorem splitRuns_nil : splitRuns [] = [] := rfl

@[simp] theorem splitRuns_cons (c : Char) (cs : List Char) :
    splitRuns (c :: cs) = consRun c (splitRuns cs) := rfl

@[simp] theorem consRun_nil (c : Char) : consRun c [] = [(c.isDigit, [c])] := rfl

@[simp] theorem consRun_cons (c : Char) (b : Bool) (r : List Char)
    (rest : List (Bool × List Char)) :
    consRun c ((b, r) :: rest) =
      if c.isDigit = b then (b, c :: r) :: rest
      else (c.isDigit, [c]) :: (b, r) :: rest := rfl

theorem splitRuns_eq_nil_iff (s : List Char) : splitRuns s = [] ↔ s = [] := by
  cases s with
  | nil => simp
  | cons c cs =>
    rw [splitRuns_cons]
    cases h : splitRuns cs with
    | nil => simp
    | cons br rest =>
      obtain ⟨b, r⟩ := br
      by_cases hb : c.isDigit = b <;> simp [hb]

/-- A digit run forms a single component. -/
theorem splitRuns_digits (r : List Char) (hne : r ≠ [])
    (hall : ∀ c ∈ r, c.isDigit = true) :
    splitRuns r = [(true, r)] := by
  induction r with
  | nil => simp at hne
  | cons c cs ih =>
    have hc : c.isDigit = true := hall c (by simp)
    cases cs with
    | nil => rw [splitRuns_cons, splitRuns_nil, consRun_nil, hc]
    | cons d ds =>
      have hcs : splitRuns (d :: ds) = [(true, d :: ds)] :=
        ih (by simp) (fun x hx => hall x (by simp [hx]))
      rw [splitRuns_cons, hcs]
      simp [hc]

/-- The first run starts with the first character and carries its
digit-ness. -/
theorem splitRuns_cons_head (c : Char) (cs : List Char) :
    ∃ r rest, splitRuns (c :: cs) = (c.isDigit, c :: r) :: rest := by
  rw [splitRuns_cons]
  cases h : splitRuns cs with
  | nil => exact ⟨[], [], by simp⟩
  | cons br rest =>
    obtain ⟨b, r⟩ := br
    by_cases hb : c.isDigit = b
    · exact ⟨r, rest, by rw [consRun_cons, if_pos hb, hb]⟩
    · exact ⟨[], (b, r) :: rest, by rw [consRun_cons, if_neg hb]⟩

/-- Splitting a concatenation whose boundary does not merge two runs:
if `s` ends with a character of different digit-ness than the first
character of `t` (or either side is empty), the runs concatenate. -/
theorem splitRuns_append (s t : List Char)
    (h : ∀ cl ∈ s.getLast?, ∀ cf ∈ t.head?, cl.isDigit ≠ cf.isDigit) :
    splitRuns (s ++ t) = splitRuns s ++ splitRuns t := by
  induction s with
  | nil => simp
  | cons c cs ih =>
    have ih' : splitRuns (cs ++ t) = splitRuns cs ++ splitRuns t := by
      apply ih
      intro cl hcl cf hcf
      cases cs with
      | nil => simp at hcl
      | cons c' cs' =>
        exact h cl (by simpa [List.getLast?_cons] using hcl) cf hcf
    rw [List.cons_append, splitRuns_cons, ih', splitRuns_cons]
    cases hcs : splitRuns cs with
    | nil =>
      have hcse : cs = [] := (splitRuns_eq_nil_iff cs).mp hcs
      subst hcse
      cases t with
      | nil => simp
      | cons d ds =>
        have hne : c.isDigit ≠ d.isDigit := h c (by simp [List.getLast?]) d (by simp)
        obtain ⟨r, rest, hr⟩ := splitRuns_cons_head d ds
        rw [List.nil_append, hr, consRun_cons,
          if_neg (by simpa using hne), ← hr]
        simp
    | cons br rest =>
      obtain ⟨b, r⟩ := br
      rw [List.cons_append, consRun_cons, consRun_cons]
      by_cases hb : c.isDigit = b <;> simp [hb]

theorem listLtB_self (lt : α → α → Bool) (hirr : ∀ a, lt a a = false)
    (l : List α) : listLtB lt l l = false := by
  induction l with
  | nil => rfl
  | cons a as ih => rw [listLtB, hirr a]; simpa using ih

/-- Key components distribute over a non-merging concatenation. -/
theorem keyItems_append (s t : List Char)
    (h : ∀ cl ∈ s.getLast?, ∀ cf ∈ t.head?, cl.isDigit ≠ cf.isDigit) :
    keyItems (s ++ t) = keyItems s ++ keyItems t := by
  unfold keyItems
  rw [splitRuns_append s t h, List.map_append]

/-- The key of a non-empty reference code starts with a rank-0 or rank-1
component; in particular it is smaller than the all-sentinel key. -/
theorem keyItems_head_rank (c : Char) (cs : List Char) :
    ∃ v txt rest, keyItems (c :: cs) = ((if c.isDigit then 0 else 1), v, txt) :: rest := by
  obtain ⟨r, rest, hr⟩ := splitRuns_cons_head c cs
  refine ⟨if c.isDigit then natVal (c :: r) else 0,
    if c.isDigit then [] else (c :: r).map Char.toLower,
    rest.map fun br =>
      if br.1 then (0, natVal br.2, ([] : List Char))
      else (1, 0, br.2.map Char.toLower), ?_⟩
  unfold keyItems
  rw [hr]
  cases hd : c.isDigit <;> simp [hd]

theorem itemLtB_lt_sentinel (r v : Nat) (t : List Char) (hr : r < 2) :
    itemLtB (r, v, t) (2, 0, []) = true := by
  simp [itemLtB, hr]

/-! ## C5: how short codes compare with their extensions

The padding sentinel is `(2, 0, '')`, and numeric runs have rank `0`,
text runs rank `1`: the sentinel is the *highest*-ordered component, not
the lowest.  Consequently a code ending in a digit run sorts *after* an
extension of it that opens a new non-digit run (`"5.1"` before `"5"`),
and the empty string's all-sentinel key is the unique *maximum* of the
key order, as long as fewer than 10 components are involved. -/

/-- C5 counterexample: the claim asserts
`natural_sort_key "5" < natural_sort_key "5" ++ "".1"` ("5" sorts before
"5.1") and that the empty string sorts first; on the code the opposite
comparisons hold. -/
theorem C5_counterexample :
    keyLtB (natural_sort_key "5".data) (natural_sort_key "5.1".data) = false
    ∧ keyLtB (natural_sort_key "5.1".data) (natural_sort_key "5".data) = true
    ∧ keyLtB (natural_sort_key "".data) (natural_sort_key "5".data) = false
    ∧ keyLtB (natural_sort_key "5".data) (natural_sort_key "".data) = true := by
  decide

/-- C5 amended: the padding sentinel `(2, 0, '')` is the
*highest*-ordered component kind, so a reference code `s` that ends in a
digit and has fewer than 10 components sorts *after* any extension
`s ++ t` whose first added character is a non-digit (e.g. `"5.1"` sorts
before `"5"`), and the empty string's all-sentinel key is a *maximum* of
the key order (sorts last). -/
theorem C5_sentinel_highest :
    (∀ (s t : List Char) (cl cf : Char),
      s.getLast? = some cl → cl.isDigit = true →
      t.head? = some cf → cf.isDigit = false →
      (keyItems s).length < 10 →
      keyLtB (natural_sort_key (s ++ t)) (natural_sort_key s) = true)
    ∧ (∀ s : List Char, s ≠ [] →
      keyLtB (natural_sort_key s) (natural_sort_key []) = true) := by
  constructor
  · intro s t cl cf hsl hcl htf hcf hlen
    have hsplit : keyItems (s ++ t) = keyItems s ++ keyItems t := by
      apply keyItems_append
      intro x hx y hy
      rw [hsl] at hx; rw [htf] at hy
      simp at hx hy
      subst hx; subst hy
      rw [hcl, hcf]; simp
    unfold natural_sort_key
    rw [hsplit]
    have hpadlen : 10 - (keyItems s ++ keyItems t).length
        ≤ 10 - (keyItems s).length := by
      simp only [List.length_append]
      omega
    unfold keyLtB
    rw [List.append_assoc]
    rw [listLtB_append_left itemLtB itemLtB_irrefl]
    obtain ⟨n, hn⟩ : ∃ n, 10 - (keyItems s).length = n + 1 :=
      ⟨10 - (keyItems s).length - 1, by omega⟩
    rw [hn, List.replicate_succ]
    cases t with
    | nil => simp at htf
    | cons d ds =>
      have hdf : d.isDigit = false := by
        have hd : d = cf := by simpa using htf
        rw [hd, hcf]
      obtain ⟨v, txt, rest, hk⟩ := keyItems_head_rank d ds
      rw [hk, hdf]
      simp [listLtB, itemLtB]
  · intro s hs
    cases s with
    | nil => simp at hs
    | cons c cs =>
      obtain ⟨v, txt, rest, hk⟩ := keyItems_head_rank c cs
      unfold natural_sort_key keyLtB
      rw [hk]
      have h10 : (10 : Nat) = 9 + 1 := rfl
      rw [show (keyItems ([] : List Char)) = [] from rfl]
      simp only [List.length_nil, Nat.sub_zero, List.nil_append, h10,
        List.replicate_succ, List.cons_append, listLtB]
      rw [itemLtB_lt_sentinel _ v txt (by cases c.isDigit <;> simp)]
      simp

/-- Witness for `C5_sentinel_highest` at `s = "5"`, `t = ".1"`. -/
theorem C5_sentinel_highest_witness :
    keyLtB (natural_sort_key ("5".data ++ ".1".data)) (natural_sort_key "5".data) = true
    ∧ keyLtB (natural_sort_key "x".data) (natural_sort_key []) = true :=
  ⟨C5_sentinel_highest.1 "5".data ".1".data '5' '.' (by decide) (by decide)
      (by decide) (by decide) (by decide),
    C5_sentinel_highest.2 "x".data (by decide)⟩

/-! ## C9: numeric runs compare by integer value -/

/-- Decomposition of the key of `p ++ d ++ q` where `d` is a maximal
digit run (`p` does not end in a digit, `q` does not start with one). -/
theorem keyItems_digit_middle (p q d : List Char) (hne : d ≠ [])
    (hall : ∀ c ∈ d, c.isDigit = true)
    (hp : ∀ cl ∈ p.getLast?, cl.isDigit = false)
    (hq : ∀ cf ∈ q.head?, cf.isDigit = false) :
    keyItems (p ++ d ++ q) =
      keyItems p ++ (0, natVal d, ([] : List Char)) :: keyItems q := by
  have h1 : splitRuns (d ++ q) = splitRuns d ++ splitRuns q := by
    apply splitRuns_append
    intro cl hcl cf hcf
    rw [hall cl (List.mem_of_getLast?_eq_some hcl), hq cf hcf]
    simp
  have h2 : splitRuns (p ++ (d ++ q)) = splitRuns p ++ splitRuns (d ++ q) := by
    apply splitRuns_append
    intro cl hcl cf hcf
    rw [List.head?_append_of_ne_nil _ hne] at hcf
    rw [hp cl hcl, hall cf (List.mem_of_mem_head? hcf)]
    simp
  unfold keyItems
  rw [List.append_assoc, h2, h1, splitRuns_digits d hne hall]
  simp

/-- C9 (confirmed): for reference codes identical except within one
maximal digit run, the natural sort key of `p ++ da ++ q` is below that
of `p ++ db ++ q` iff `int(da) < int(db)`, independent of digit count or
leading zeros; runs of equal integer value give identical keys
(`"01"` keys equal to `"1"`). -/
theorem C9_numeric_run_comparison (p q da db : List Char)
    (hda : da ≠ []) (hdaall : ∀ c ∈ da, c.isDigit = true)
    (hdb : db ≠ []) (hdball : ∀ c ∈ db, c.isDigit = true)
    (hp : ∀ cl ∈ p.getLast?, cl.isDigit = false)
    (hq : ∀ cf ∈ q.head?, cf.isDigit = false) :
    (keyLtB (natural_sort_key (p ++ da ++ q)) (natural_sort_key (p ++ db ++ q)) = true
      ↔ natVal da < natVal db)
    ∧ (natVal da = natVal db →
      natural_sort_key (p ++ da ++ q) = natural_sort_key (p ++ db ++ q)) := by
  have ha := keyItems_digit_middle p q da hda hdaall hp hq
  have hb := keyItems_digit_middle p q db hdb hdball hp hq
  have hlen : (keyItems p ++ (0, natVal da, ([] : List Char)) :: keyItems q).length
      = (keyItems p ++ (0, natVal db, ([] : List Char)) :: keyItems q).length := by
    simp
  constructor
  · unfold natural_sort_key keyLtB
    rw [ha, hb, hlen]
    rw [List.append_assoc, List.append_assoc,
      listLtB_append_left itemLtB itemLtB_irrefl]
    set R := keyItems q ++
      List.replicate (10 - (keyItems p ++ (0, natVal db, ([] : List Char)) :: keyItems q).length)
        (2, 0, ([] : List Char)) with hR
    show listLtB itemLtB ((0, natVal da, []) :: R) ((0, natVal db, []) :: R) = true
      ↔ natVal da < natVal db
    rw [listLtB]
    rcases Nat.lt_trichotomy (natVal da) (natVal db) with h | h | h
    · rw [if_pos (by simp [itemLtB, h])]
      simpa using h
    · rw [if_neg (by simp [itemLtB, h, strLtB_irrefl]),
        if_neg (by simp [itemLtB, h, strLtB_irrefl]),
        listLtB_self itemLtB itemLtB_irrefl]
      simp [h]
    · rw [if_neg (by simp [itemLtB, Nat.lt_asymm h, strLtB_irrefl]),
        if_pos (by simp [itemLtB, h])]
      simp
      omega
  · intro h
    unfold natural_sort_key
    rw [ha, hb, hlen, h]


/-- Witness for `C9_numeric_run_comparison`: `"2"` sorts before `"10"`
and `"01"` keys equal to `"1"`. -/
theorem C9_numeric_run_comparison_witness :
    (keyLtB (natural_sort_key ([] ++ "2".data ++ []))
        (natural_sort_key ([] ++ "10".data ++ [])) = true
      ↔ natVal "2".data < natVal "10".data)
    ∧ (natVal "01".data = natVal "1".data →
      natural_sort_key ([] ++ "01".data ++ []) = natural_sort_key ([] ++ "1".data ++ [])) :=
  ⟨(C9_numeric_run_comparison [] [] "2".data "10".data (by decide) (by decide)
      (by decide) (by decide) (by simp) (by simp)).1,
    (C9_numeric_run_comparison [] [] "01".data "1".data (by decide) (by decide)
      (by decide) (by decide) (by simp) (by simp)).2⟩

/-! ## Trailing-parenthetical decomposition -/

theorem splitTrailingParen_some {s pre g : List Char}
    (h : splitTrailingParen s = some (pre, g)) :
    s = pre ++ '(' :: (g ++ [')']) ∧ ∀ c ∈ g, notParen c = true := by
  unfold splitTrailingParen at h
  rcases hrev : s.reverse with _ | ⟨c0, t⟩ <;> rw [hrev] at h
  · simp [splitTPAux] at h
  · rw [splitTPAux] at h
    split at h
    · next hc0 =>
      subst hc0
      split at h
      · exact absurd h (by simp)
      · next c1 pre' hdrop =>
        split at h
        · next hc1 =>
          subst hc1
          injection h with h
          injection h with h1 h2
          subst h1; subst h2
          have hs : s = t.reverse ++ [')'] := by
            rw [List.reverse_eq_iff] at hrev; simpa using hrev
          have ht : t.takeWhile notParen ++ '(' :: pre' = t := by
            conv_rhs => rw [← List.takeWhile_append_dropWhile notParen t]
            rw [hdrop]
          refine ⟨?_, fun c hc => List.mem_takeWhile_imp (by simpa using hc)⟩
          have htrev : t.reverse = pre'.reverse ++ '(' :: (t.takeWhile notParen).reverse := by
            conv_lhs => rw [← ht]
            simp
          rw [hs, htrev]
          simp
        · exact absurd h (by simp)
    · exact absurd h (by simp)

theorem splitTrailingParen_shape (pre g : List Char)
    (hg : ∀ c ∈ g, notParen c = true) :
    splitTrailingParen (pre ++ '(' :: (g ++ [')'])) = some (pre, g) := by
  unfold splitTrailingParen
  have hrev : (pre ++ '(' :: (g ++ [')'])).reverse
      = ')' :: (g.reverse ++ '(' :: pre.reverse) := by simp
  rw [hrev, splitTPAux, if_pos rfl]
  have hgr : ∀ c ∈ g.reverse, notParen c = true := by simpa using hg
  rw [List.dropWhile_append_of_pos hgr,
    List.dropWhile_cons_of_neg (by simp [notParen]),
    List.takeWhile_append_of_pos hgr,
    List.takeWhile_cons_of_neg (by simp [notParen])]
  simp

/-! ### Character-class facts -/

theorem uint32_le_ofNat_iff {n : UInt32} {m : Nat} (h : m < UInt32.size) :
    (n ≤ UInt32.ofNat m) ↔ n.toNat ≤ m := by
  simp [UInt32.le_def, BitVec.le_def, UInt32.toNat, UInt32.toBitVec_eq_of_lt h]

theorem uint32_ofNat_le_iff {n : UInt32} {m : Nat} (h : m < UInt32.size) :
    (UInt32.ofNat m ≤ n) ↔ m ≤ n.toNat := by
  simp [UInt32.le_def, BitVec.le_def, UInt32.toNat, UInt32.toBitVec_eq_of_lt h]

theorem isDigit_iff_toNat (c : Char) : c.isDigit = true ↔ 48 ≤ c.toNat ∧ c.toNat ≤ 57 := by
  simp only [Char.isDigit, Bool.and_eq_true, decide_eq_true_eq]
  constructor
  · rintro ⟨h1, h2⟩
    exact ⟨(uint32_ofNat_le_iff (by decide)).mp h1, (uint32_le_ofNat_iff (by decide)).mp h2⟩
  · rintro ⟨h1, h2⟩
    exact ⟨(uint32_ofNat_le_iff (by decide)).mpr h1, (uint32_le_ofNat_iff (by decide)).mpr h2⟩

theorem isUpper_iff_toNat (c : Char) : c.isUpper = true ↔ 65 ≤ c.toNat ∧ c.toNat ≤ 90 := by
  simp only [Char.isUpper, Bool.and_eq_true, decide_eq_true_eq]
  constructor
  · rintro ⟨h1, h2⟩
    exact ⟨(uint32_ofNat_le_iff (by decide)).mp h1, (uint32_le_ofNat_iff (by decide)).mp h2⟩
  · rintro ⟨h1, h2⟩
    exact ⟨(uint32_ofNat_le_iff (by decide)).mpr h1, (uint32_le_ofNat_iff (by decide)).mpr h2⟩

theorem isLower_iff_toNat (c : Char) : c.isLower = true ↔ 97 ≤ c.toNat ∧ c.toNat ≤ 122 := by
  simp only [Char.isLower, Bool.and_eq_true, decide_eq_true_eq]
  constructor
  · rintro ⟨h1, h2⟩
    exact ⟨(uint32_ofNat_le_iff (by decide)).mp h1, (uint32_le_ofNat_iff (by decide)).mp h2⟩
  · rintro ⟨h1, h2⟩
    exact ⟨(uint32_ofNat_le_iff (by decide)).mpr h1, (uint32_le_ofNat_iff (by decide)).mpr h2⟩

theorem upper_not_digit {c : Char} (h : c.isUpper = true) : c.isDigit = false := by
  rw [Bool.eq_false_iff]
  intro hd
  have h1 := (isUpper_iff_toNat c).mp h
  have h2 := (isDigit_iff_toNat c).mp hd
  omega

theorem lower_not_digit {c : Char} (h : c.isLower = true) : c.isDigit = false := by
  rw [Bool.eq_false_iff]
  intro hd
  have h1 := (isLower_iff_toNat c).mp h
  have h2 := (isDigit_iff_toNat c).mp hd
  omega

theorem lower_not_upper {c : Char} (h : c.isLower = true) : c.isUpper = false := by
  rw [Bool.eq_false_iff]
  intro hd
  have h1 := (isLower_iff_toNat c).mp h
  have h2 := (isUpper_iff_toNat c).mp hd
  omega

theorem singleLower_elim {g : List Char} (h : isSingleLower g = true) :
    ∃ c, g = [c] ∧ c.isLower = true := by
  rcases g with _ | ⟨x, _ | ⟨y, t⟩⟩ <;> simp [isSingleLower] at h
  exact ⟨x, rfl, h⟩

theorem singleUpper_elim {g : List Char} (h : isSingleUpper g = true) :
    ∃ c, g = [c] ∧ c.isUpper = true := by
  rcases g with _ | ⟨x, _ | ⟨y, t⟩⟩ <;> simp [isSingleUpper] at h
  exact ⟨x, rfl, h⟩

theorem singleLower_not_digitRun {g : List Char} (h : isSingleLower g = true) :
    isDigitRun g = false := by
  obtain ⟨c, rfl, hc⟩ := singleLower_elim h
  simp [isDigitRun, lower_not_digit hc]

theorem singleLower_not_upper {g : List Char} (h : isSingleLower g = true) :
    isSingleUpper g = false := by
  obtain ⟨c, rfl, hc⟩ := singleLower_elim h
  simp [isSingleUpper, lower_not_upper hc]

theorem singleUpper_not_digitRun {g : List Char} (h : isSingleUpper g = true) :
    isDigitRun g = false := by
  obtain ⟨c, rfl, hc⟩ := singleUpper_elim h
  simp [isDigitRun, upper_not_digit hc]

/-- Any of the four content classes excludes parentheses. -/
theorem classes_notParen {g : List Char}
    (h : isDigitRun g = true ∨ isSingleUpper g = true
      ∨ isRomanRun g = true ∨ isSingleLower g = true) :
    ∀ c ∈ g, notParen c = true := by
  intro c hc
  unfold notParen
  simp only [decide_eq_true_eq]
  rcases h with h | h | h | h
  · have hd : c.isDigit = true :=
      List.all_eq_true.mp (Bool.and_eq_true_iff.mp h).2 c hc
    constructor <;> rintro rfl <;> exact absurd hd (by decide)
  · obtain ⟨x, rfl, hx⟩ := singleUpper_elim h
    have : c = x := by simpa using hc
    subst this
    constructor <;> rintro rfl <;> exact absurd hx (by decide)
  · have hd : (c = 'i' ∨ c = 'v' ∨ c = 'x') := by
      simpa using List.all_eq_true.mp (Bool.and_eq_true_iff.mp h).2 c hc
    rcases hd with rfl | rfl | rfl <;> exact ⟨by decide, by decide⟩
  · obtain ⟨x, rfl, hx⟩ := singleLower_elim h
    have : c = x := by simpa using hc
    subst this
    constructor <;> rintro rfl <;> exact absurd hx (by decide)

/-- A dotted pair `\d+\.\d+` is non-empty and contains no newline. -/
theorem isDottedPair_facts {p : List Char} (h : isDottedPair p = true) :
    noNL p = true ∧ p.isEmpty = false := by
  unfold isDottedPair at h
  split at h
  · next d1h d1t rest htk hdr =>
    have hp : p.takeWhile Char.isDigit ++ p.dropWhile Char.isDigit = p :=
      List.takeWhile_append_dropWhile Char.isDigit p
    rw [htk, hdr] at hp
    have hrest : ∀ c ∈ rest, c.isDigit = true :=
      List.all_eq_true.mp (Bool.and_eq_true_iff.mp h).2
    constructor
    · unfold noNL
      rw [List.all_eq_true]
      intro c hcmem
      rw [← hp] at hcmem
      simp only [decide_eq_true_eq]
      rintro rfl
      simp only [List.cons_append, List.mem_append, List.mem_cons] at hcmem
      rcases hcmem with hm | hm | hm
      · have hmem : ('\n' : Char) ∈ p.takeWhile Char.isDigit := by
          rw [htk, hm]
          exact List.mem_cons_self _ _
        exact absurd (List.mem_takeWhile_imp hmem) (by decide)
      · have hmem : ('\n' : Char) ∈ p.takeWhile Char.isDigit := by
          rw [htk]
          exact List.mem_cons_of_mem _ hm
        exact absurd (List.mem_takeWhile_imp hmem) (by decide)
      · rcases hm with hm3 | hm3
        · exact absurd hm3 (by decide)
        · exact absurd (hrest _ hm3) (by decide)
    · rw [← hp]
      simp
  · exact absurd h (by simp)

/-- Characterization of the HIPAA `get_immediate_parent`: it returns
exactly the code with one trailing parenthetical group removed, when the
group's content is a digit run, a single uppercase letter, a roman-digit
run, or (only with a bare `\d+\.\d+` remainder) a single lowercase
letter. -/
theorem gip_eq_some_iff (s p : List Char) :
    get_immediate_parent s = some p ↔
      ∃ g, splitTrailingParen s = some (p, g) ∧
        ((isDigitRun g || isSingleUpper g || isRomanRun g)
            && noNL p && !p.isEmpty
          || isSingleLower g && isDottedPair p) = true := by
  unfold get_immediate_parent
  cases hsplit : splitTrailingParen s with
  | none => simp
  | some pg =>
    obtain ⟨pre, g⟩ := pg
    simp only [hsplit, Option.some.injEq, Prod.mk.injEq]
    constructor
    · intro h
      split at h
      · next h1 =>
        injection h with h; subst h
        refine ⟨g, ⟨rfl, rfl⟩, ?_⟩
        rcases Bool.and_eq_true_iff.mp h1 with ⟨h1a, h1c⟩
        rcases Bool.and_eq_true_iff.mp h1a with ⟨h1d, h1b⟩
        simp [h1b, h1c, h1d]
      · split at h
        · next h2 =>
          injection h with h; subst h
          refine ⟨g, ⟨rfl, rfl⟩, ?_⟩
          rcases Bool.and_eq_true_iff.mp h2 with ⟨h2a, h2c⟩
          rcases Bool.and_eq_true_iff.mp h2a with ⟨h2d, h2b⟩
          simp [h2b, h2c, h2d]
        · split at h
          · next h3 =>
            injection h with h; subst h
            refine ⟨g, ⟨rfl, rfl⟩, ?_⟩
            rcases Bool.and_eq_true_iff.mp h3 with ⟨h3a, h3c⟩
            rcases Bool.and_eq_true_iff.mp h3a with ⟨h3d, h3b⟩
            simp [h3b, h3c, h3d]
          · split at h
            · next h4 =>
              injection h with h; subst h
              refine ⟨g, ⟨rfl, rfl⟩, ?_⟩
              simp [h4]
            · exact absurd h (by simp)
    · rintro ⟨g2, ⟨hp, hg⟩, hcond⟩
      subst hp; subst hg
      rcases Bool.or_eq_true_iff.mp hcond with hc | hc
      · rcases Bool.and_eq_true_iff.mp hc with ⟨hca, hcne⟩
        rcases Bool.and_eq_true_iff.mp hca with ⟨hclass, hcnl⟩
        rcases Bool.or_eq_true_iff.mp hclass with hcl | hcl
        · rcases Bool.or_eq_true_iff.mp hcl with hcl2 | hcl2
          · rw [if_pos (by simp [hcl2, hcnl, hcne])]
          · rw [if_neg (by simp [singleUpper_not_digitRun hcl2]),
              if_pos (by simp [hcl2, hcnl, hcne])]
        · by_cases hdg : (isDigitRun g && noNL pre && !pre.isEmpty) = true
          · rw [if_pos hdg]
          · rw [if_neg hdg]
            by_cases hup : (isSingleUpper g && noNL pre && !pre.isEmpty) = true
            · rw [if_pos hup]
            · rw [if_neg hup, if_pos (by simp [hcl, hcnl, hcne])]
      · rcases Bool.and_eq_true_iff.mp hc with ⟨hlo, hdot⟩
      -- a single lowercase letter is neither a digit run nor an uppercase
      -- letter, so the first two rules fail; the third (roman) may fire,
      -- returning the same prefix, else the fourth fires.
        obtain ⟨hnl, hne⟩ := isDottedPair_facts hdot
        rw [if_neg (by simp [singleLower_not_digitRun hlo]),
          if_neg (by simp [singleLower_not_upper hlo])]
        by_cases hrom : isRomanRun g = true
        · rw [if_pos (by simp [hrom, hnl, hne])]
        · rw [if_neg (by simp [hrom]), if_pos (by simp [hlo, hdot])]

/-- The two HIPAA parent-inference implementations agree everywhere: the
extra fourth rule `^(.+\([a-z]\))\(\d+\)$` of the all-framework variant
can only fire when the first rule `^(.+)\(\d+\)$` already fired. -/
theorem gph_eq_gip (s : List Char) : get_parent_ref_hipaa s = get_immediate_parent s := by
  cases hsplit : splitTrailingParen s with
  | none =>
    unfold get_parent_ref_hipaa get_immediate_parent
    rw [hsplit]
  | some pg =>
    obtain ⟨pre, g⟩ := pg
    have redL : get_parent_ref_hipaa s =
        (if isDigitRun g && noNL pre && !pre.isEmpty then some pre
        else if isSingleUpper g && noNL pre && !pre.isEmpty then some pre
        else if isRomanRun g && noNL pre && !pre.isEmpty then some pre
        else if isDigitRun g &&
            (match splitTrailingParen pre with
              | some (p2, g2) => isSingleLower g2 && noNL p2 && !p2.isEmpty
              | none => false) then some pre
        else if isSingleLower g && isDottedPair pre then some pre
        else none) := by
      unfold get_parent_ref_hipaa
      rw [hsplit]
    have redR : get_immediate_parent s =
        (if isDigitRun g && noNL pre && !pre.isEmpty then some pre
        else if isSingleUpper g && noNL pre && !pre.isEmpty then some pre
        else if isRomanRun g && noNL pre && !pre.isEmpty then some pre
        else if isSingleLower g && isDottedPair pre then some pre
        else none) := by
      unfold get_immediate_parent
      rw [hsplit]
    rw [redL, redR]
    by_cases h1 : (isDigitRun g && noNL pre && !pre.isEmpty) = true
    · rw [if_pos h1, if_pos h1]
    · rw [if_neg h1, if_neg h1]
      by_cases h2 : (isSingleUpper g && noNL pre && !pre.isEmpty) = true
      · rw [if_pos h2, if_pos h2]
      · rw [if_neg h2, if_neg h2]
        by_cases h3 : (isRomanRun g && noNL pre && !pre.isEmpty) = true
        · rw [if_pos h3, if_pos h3]
        · rw [if_neg h3, if_neg h3]
          rw [if_neg ?hr4]
          case hr4 =>
            intro h4
            rcases Bool.and_eq_true_iff.mp h4 with ⟨hg, hin⟩
            cases hsp : splitTrailingParen pre with
            | none => rw [hsp] at hin; exact absurd hin (by simp)
            | some p2g2 =>
              obtain ⟨p2, g2⟩ := p2g2
              rw [hsp] at hin
              rcases Bool.and_eq_true_iff.mp hin with ⟨hin1, hne2⟩
              rcases Bool.and_eq_true_iff.mp hin1 with ⟨hlo2, hnl2⟩
              obtain ⟨hshape, -⟩ := splitTrailingParen_some hsp
              apply h1
              obtain ⟨c, rfl, hc⟩ := singleLower_elim hlo2
              have hcn : c ≠ '\n' := by rintro rfl; exact absurd hc (by decide)
              rw [hshape, hg]
              unfold noNL at hnl2 ⊢
              have hp2 : ∀ x ∈ p2, ¬ x = '\n' := by
                intro x hx
                simpa using List.all_eq_true.mp hnl2 x hx
              simp only [List.all_append, List.all_cons, List.all_nil]
              simp [hcn, List.all_eq_true]
              exact hp2

/-! ## C6: one trailing parenthetical group -/

/-- C6 counterexample: the claim says a ref_code ending in a single
lowercase non-roman letter in parentheses, at any nesting depth, yields
the code with that group removed; on the code, `"164.306(d)(b)"` (depth
two) yields `None` from both HIPAA rule implementations, because the
single-lowercase rule only accepts a bare `\d+\.\d+` remainder. -/
theorem C6_counterexample :
    get_immediate_parent "164.306(d)(b)".data = none
    ∧ get_parent_ref_hipaa "164.306(d)(b)".data = none := by
  constructor
  · decide
  · decide

/-- C6 amended: the HIPAA parent rule strips exactly one trailing
parenthetical group, accepting (in priority order) a numeric group, a
single-uppercase group or a roman-numeral group with any non-empty
remainder, but a single-lowercase group only when the remainder is a bare
`\d+\.\d+` section code (depth one) — deeper lowercase groups give
`None`; both implementations agree everywhere. -/
theorem C6_parenthetical_rules :
    (∀ s p : List Char, get_immediate_parent s = some p → ∃ g,
        s = p ++ '(' :: (g ++ [')'])
        ∧ ((isDigitRun g || isSingleUpper g || isRomanRun g)
              && noNL p && !p.isEmpty
            || isSingleLower g && isDottedPair p) = true)
    ∧ (∀ p g : List Char,
        ((isDigitRun g || isSingleUpper g || isRomanRun g)
              && noNL p && !p.isEmpty
            || isSingleLower g && isDottedPair p) = true →
        get_immediate_parent (p ++ '(' :: (g ++ [')'])) = some p)
    ∧ (∀ s : List Char, get_parent_ref_hipaa s = get_immediate_parent s) := by
  refine ⟨?_, ?_, gph_eq_gip⟩
  · intro s p h
    obtain ⟨g, hsp, hcond⟩ := (gip_eq_some_iff s p).mp h
    exact ⟨g, (splitTrailingParen_some hsp).1, hcond⟩
  · intro p g hcond
    have hg : ∀ c ∈ g, notParen c = true := by
      apply classes_notParen
      rcases Bool.or_eq_true_iff.mp hcond with hc | hc
      · rcases Bool.and_eq_true_iff.mp hc with ⟨hca, -⟩
        rcases Bool.and_eq_true_iff.mp hca with ⟨hclass, -⟩
        rcases Bool.or_eq_true_iff.mp hclass with hcl | h3
        · rcases Bool.or_eq_true_iff.mp hcl with hr1 | hr2
          · exact Or.inl hr1
          · exact Or.inr (Or.inl hr2)
        · exact Or.inr (Or.inr (Or.inl h3))
      · exact Or.inr (Or.inr (Or.inr (Bool.and_eq_true_iff.mp hc).1))
    exact (gip_eq_some_iff _ p).mpr ⟨g, splitTrailingParen_shape p g hg, hcond⟩

/-- Witness for `C6_parenthetical_rules` at `"5.1(a)"` (lowercase group
at depth one) and `"164.306(b)(2)"` (numeric group). -/
theorem C6_parenthetical_rules_witness :
    (∃ g, "5.1(a)".data = "5.1".data ++ '(' :: (g ++ [')'])
      ∧ ((isDigitRun g || isSingleUpper g || isRomanRun g)
            && noNL "5.1".data && !"5.1".data.isEmpty
          || isSingleLower g && isDottedPair "5.1".data) = true)
    ∧ get_immediate_parent ("164.306(b)".data ++ '(' :: ("2".data ++ [')']))
        = some "164.306(b)".data
    ∧ get_parent_ref_hipaa "164.306(b)(2)".data
        = get_immediate_parent "164.306(b)(2)".data :=
  ⟨C6_parenthetical_rules.1 "5.1(a)".data "5.1".data (by decide),
    C6_parenthetical_rules.2.1 "164.306(b)".data "2".data (by decide),
    C6_parenthetical_rules.2.2 "164.306(b)(2)".data⟩

/-! ## C8: the ancestor-chain resolver -/

theorem aux_chain_le_length (gp : List Char → Option (List Char))
    (hs : ∀ s p, gp s = some p → p.length < s.length) :
    ∀ (fuel : Nat) (s : List Char),
      (get_all_parent_refs_aux gp fuel s).length ≤ s.length := by
  intro fuel
  induction fuel with
  | zero => intro s; simp [get_all_parent_refs_aux]
  | succ f ih =>
    intro s
    cases hgp : gp s with
    | none => simp [get_all_parent_refs_aux, hgp]
    | some p =>
      simp only [get_all_parent_refs_aux, hgp, List.length_cons]
      have h1 := ih p
      have h2 := hs s p hgp
      omega

theorem aux_fuel_stable (gp : List Char → Option (List Char))
    (hs : ∀ s p, gp s = some p → p.length < s.length) :
    ∀ (fuel fuel' : Nat) (s : List Char), s.length < fuel → s.length < fuel' →
      get_all_parent_refs_aux gp fuel s = get_all_parent_refs_aux gp fuel' s := by
  intro fuel
  induction fuel with
  | zero => intro fuel' s h _; omega
  | succ f ih =>
    intro fuel' s h h'
    cases fuel' with
    | zero => omega
    | succ f' =>
      cases hgp : gp s with
      | none => simp [get_all_parent_refs_aux, hgp]
      | some p =>
        have hp := hs s p hgp
        simp only [get_all_parent_refs_aux, hgp]
        rw [ih f' p (by omega) (by omega)]

/-- C8 counterexample: the resolver performs no iteration capping and
raises no error — on `"1.1(a)(1)(2)(3)(4)(5)(6)(7)(8)(9)(10)"` it runs
past any bound of 10, returning an 11-ancestor chain normally. -/
theorem C8_counterexample :
    (get_all_parent_refs "1.1(a)(1)(2)(3)(4)(5)(6)(7)(8)(9)(10)".data).length = 11
    ∧ ¬ (get_all_parent_refs "1.1(a)(1)(2)(3)(4)(5)(6)(7)(8)(9)(10)".data).length ≤ 10 := by
  constructor
  · decide
  · decide

/-- C8 amended: `get_all_parent_refs` has no iteration cap and no error
signal; it nevertheless terminates on every input because each inferred
parent is strictly shorter than its child, so the chain stabilizes within
`length s` steps (any fuel beyond `length s` gives the same chain) and
has at most `length s` entries. -/
theorem C8_resolver_terminates :
    (∀ s p : List Char, get_immediate_parent s = some p → p.length < s.length)
    ∧ (∀ (s : List Char) (fuel : Nat), s.length < fuel →
        get_all_parent_refs_aux get_immediate_parent fuel s = get_all_parent_refs s)
    ∧ (∀ s : List Char, (get_all_parent_refs s).length ≤ s.length) := by
  have hs : ∀ s p : List Char, get_immediate_parent s = some p → p.length < s.length := by
    intro s p h
    obtain ⟨g, hsp, -⟩ := (gip_eq_some_iff s p).mp h
    rw [(splitTrailingParen_some hsp).1]
    simp
  refine ⟨hs, ?_, fun s => aux_chain_le_length _ hs _ s⟩
  intro s fuel h
  exact aux_fuel_stable _ hs fuel (s.length + 1) s h (by omega)

/-- Witness for `C8_resolver_terminates` at `"5(1)"` and fuel 100. -/
theorem C8_resolver_terminates_witness :
    "5".data.length < "5(1)".data.length
    ∧ get_all_parent_refs_aux get_immediate_parent 100 "5(1)".data
        = get_all_parent_refs "5(1)".data
    ∧ ("5(1)".data.length < 100) :=
  ⟨C8_resolver_terminates.1 "5(1)".data "5".data (by decide),
    C8_resolver_terminates.2.1 "5(1)".data 100 (by decide),
    by decide⟩

/-! ## C4: the HIPAA deep-nesting scenario -/

/-- C4 (confirmed): running the HIPAA hierarchy fix on a framework whose
only node is `164.306(b)(2)(i)` creates exactly the group rows
`164.306`, `164.306(b)` and `164.306(b)(2)` (ids 2–4, in the
lexicographic creation order of `sorted(parents_to_create)`), each with
`is_group = true` and the generated `"HIPAA Section …"` placeholder
description, and links
`164.306(b)(2)(i) → 164.306(b)(2) → 164.306(b) → 164.306`, with
`164.306` a root (`parent_id = None`).  The original node, being
childless, is classified `is_group = false, 'control'`. -/
theorem C4_hipaa_deep_nesting :
    hipaaRun [⟨1, "164.306(b)(2)(i)".data, none, "orig".data, none, none, none⟩] =
      [⟨1, "164.306(b)(2)(i)".data, some 4, "orig".data, some false, some "control".data, none⟩,
        ⟨2, "164.306".data, none, "HIPAA Section 164.306".data, some true, some "section".data, none⟩,
        ⟨3, "164.306(b)".data, some 2, "HIPAA Section 164.306(b)".data, some true, some "section".data, none⟩,
        ⟨4, "164.306(b)(2)".data, some 3, "HIPAA Section 164.306(b)(2)".data, some true, some "section".data, none⟩] := by
  decide

/-! ## C10: the natural sort key is not injective; ties fall back to
load order via sort stability -/

theorem char_toNat_ofNat_valid {n : Nat} (h : n.isValidChar) :
    (Char.ofNat n).toNat = n := by
  unfold Char.ofNat
  rw [dif_pos h]
  simp [Char.ofNatAux, Char.toNat, UInt32.toNat]

theorem isDigit_toLower (c : Char) : (Char.toLower c).isDigit = c.isDigit := by
  unfold Char.toLower
  simp only []
  by_cases h : c.toNat ≥ 65 ∧ c.toNat ≤ 90
  · rw [if_pos h]
    obtain ⟨h1, h2⟩ := h
    have hval : (Char.ofNat (c.toNat + 32)).toNat = c.toNat + 32 :=
      char_toNat_ofNat_valid (Or.inl (by omega))
    have hlhs : (Char.ofNat (c.toNat + 32)).isDigit = false := by
      rw [Bool.eq_false_iff]
      intro hd
      have := (isDigit_iff_toNat _).mp hd
      omega
    have hrhs : c.isDigit = false := by
      rw [Bool.eq_false_iff]
      intro hd
      have := (isDigit_iff_toNat _).mp hd
      omega
    rw [hlhs, hrhs]
  · rw [if_neg h]

theorem toLower_eq_of_digit {c : Char} (h : c.isDigit = true) :
    Char.toLower c = c := by
  unfold Char.toLower
  simp only []
  rw [if_neg]
  intro hcond
  have := (isDigit_iff_toNat c).mp h
  omega

theorem toLower_toLower (c : Char) :
    Char.toLower (Char.toLower c) = Char.toLower c := by
  by_cases h : c.toNat ≥ 65 ∧ c.toNat ≤ 90
  · have h1 : Char.toLower c = Char.ofNat (c.toNat + 32) := by
      unfold Char.toLower
      simp only []
      rw [if_pos h]
    have hval : (Char.ofNat (c.toNat + 32)).toNat = c.toNat + 32 :=
      char_toNat_ofNat_valid (Or.inl (by omega))
    rw [h1]
    unfold Char.toLower
    simp only []
    rw [if_neg]
    rw [hval]
    omega
  · have h1 : Char.toLower c = c := by
      unfold Char.toLower
      simp only []
      rw [if_neg h]
    rw [h1, h1]

/-- Lowercasing commutes with the run decomposition. -/
theorem splitRuns_map_toLower (l : List Char) :
    splitRuns (l.map Char.toLower)
      = (splitRuns l).map fun br => (br.1, br.2.map Char.toLower) := by
  induction l with
  | nil => simp
  | cons c cs ih =>
    rw [List.map_cons, splitRuns_cons, splitRuns_cons, ih]
    cases hcs : splitRuns cs with
    | nil => simp [isDigit_toLower]
    | cons br rest =>
      obtain ⟨b, r⟩ := br
      rw [List.map_cons, consRun_cons, consRun_cons, isDigit_toLower]
      by_cases hb : c.isDigit = b <;> simp [hb]

/-- Each run's characters have the run's digit-ness. -/
theorem splitRuns_class (l : List Char) :
    ∀ br ∈ splitRuns l, ∀ c ∈ br.2, c.isDigit = br.1 := by
  induction l with
  | nil => simp
  | cons c cs ih =>
    rw [splitRuns_cons]
    cases hcs : splitRuns cs with
    | nil =>
      simp only [consRun_nil, List.mem_singleton]
      rintro br rfl
      simp
    | cons br0 rest =>
      obtain ⟨b0, r0⟩ := br0
      rw [consRun_cons]
      by_cases hb : c.isDigit = b0
      · rw [if_pos hb]
        intro br hbr
        rcases List.mem_cons.mp hbr with rfl | hbr2
        · intro x hx
          rcases List.mem_cons.mp hx with rfl | hx2
          · exact hb
          · exact ih (b0, r0) (hcs ▸ List.mem_cons_self _ _) x hx2
        · exact ih br (hcs ▸ List.mem_cons_of_mem _ hbr2)
      · rw [if_neg hb]
        intro br hbr
        rcases List.mem_cons.mp hbr with rfl | hbr2
        · intro x hx
          rcases List.mem_cons.mp hx with rfl | hx2
          · rfl
          · simp at hx2
        · exact ih br (hcs ▸ hbr2)

/-- The natural sort key only sees the lowercased reference code. -/
theorem key_map_toLower (l : List Char) :
    natural_sort_key (l.map Char.toLower) = natural_sort_key l := by
  have hitems : keyItems (l.map Char.toLower) = keyItems l := by
    unfold keyItems
    rw [splitRuns_map_toLower, List.map_map]
    apply List.map_congr_left
    intro br hbr
    obtain ⟨b, r⟩ := br
    have hclass := splitRuns_class l (b, r) hbr
    cases b with
    | true =>
      have hfix : r.map Char.toLower = r := by
        have := List.map_congr_left (l := r) (f := Char.toLower) (g := id)
          fun c hc => toLower_eq_of_digit (hclass c hc)
        simpa using this
      simp [Function.comp, hfix]
    | false =>
      have hfix : (r.map Char.toLower).map Char.toLower = r.map Char.toLower := by
        rw [List.map_map]
        exact List.map_congr_left fun c _ => toLower_toLower c
      simp [Function.comp, hfix]
  unfold natural_sort_key
  rw [hitems]

/-! ### Stability of the sibling sort -/

theorem self_sublist_insertLe (le : α → α → Bool) (a : α) (s : List α) :
    s.Sublist (insertLe le a s) := by
  induction s with
  | nil => simp [insertLe]
  | cons b bs ih =>
    unfold insertLe
    by_cases h : le a b = true
    · rw [if_pos h]
      exact List.sublist_cons_self _ _
    · rw [if_neg h]
      exact List.Sublist.cons₂ b ih

theorem mem_insertLe_self (le : α → α → Bool) (a : α) (s : List α) :
    a ∈ insertLe le a s := by
  induction s with
  | nil => simp [insertLe]
  | cons b bs ih =>
    unfold insertLe
    by_cases h : le a b = true
    · rw [if_pos h]; exact List.mem_cons_self _ _
    · rw [if_neg h]; exact List.mem_cons_of_mem _ ih

theorem mem_sortLe (le : α → α → Bool) {x : α} {l : List α} (h : x ∈ l) :
    x ∈ sortLe le l := by
  induction l with
  | nil => simp at h
  | cons a t ih =>
    show x ∈ insertLe le a (sortLe le t)
    rcases List.mem_cons.mp h with rfl | hx
    · exact mem_insertLe_self le x _
    · exact (self_sublist_insertLe le a _).subset (ih hx)

theorem pair_sublist_insertLe (le : α → α → Bool) {x y : α} {s : List α}
    (hxy : le x y = true) (hy : y ∈ s) :
    [x, y].Sublist (insertLe le x s) := by
  induction s with
  | nil => simp at hy
  | cons b bs ih =>
    unfold insertLe
    by_cases h : le x b = true
    · rw [if_pos h]
      exact List.cons_sublist_cons.mpr (List.singleton_sublist.mpr hy)
    · rw [if_neg h]
      rcases List.mem_cons.mp hy with rfl | hy2
      · exact absurd hxy h
      · exact List.Sublist.cons b (ih hy2)

/-- Stability: if `x` precedes `y` in the input and the order lets `x`
stay before `y`, then `x` precedes `y` in the sorted output. -/
theorem sortLe_stable (le : α → α → Bool) {x y : α} {l : List α}
    (hxy : le x y = true) (h : [x, y].Sublist l) :
    [x, y].Sublist (sortLe le l) := by
  induction l with
  | nil => simp at h
  | cons a t ih =>
    show [x, y].Sublist (insertLe le a (sortLe le t))
    rcases List.sublist_cons_iff.mp h with h2 | ⟨r, hr, hrs⟩
    · exact (ih h2).trans (self_sublist_insertLe le a _)
    · have hax : a = x := by
        have := congrArg (List.head? ·) hr
        simpa using this.symm
      subst hax
      have hyr : y ∈ r := by
        have := congrArg (List.tail ·) hr
        simp at this
        rw [← this]
        exact List.mem_cons_self _ _
      exact pair_sublist_insertLe le hxy (mem_sortLe le (hrs.subset hyr))

/-- C10 (confirmed): `natural_sort_key` is not injective — codes that
agree after ASCII lowercasing (and, by `C9_numeric_run_comparison`,
digit runs with leading zeros) receive identical keys — and the sibling
sort is stable, so equal-key siblings keep their load order. -/
theorem C10_key_not_injective :
    (∀ a b : List Char, a.map Char.toLower = b.map Char.toLower →
      natural_sort_key a = natural_sort_key b)
    ∧ (natural_sort_key "A".data = natural_sort_key "a".data ∧ "A".data ≠ "a".data)
    ∧ (natural_sort_key "01".data = natural_sort_key "1".data ∧ "01".data ≠ "1".data)
    ∧ (∀ (l : List DCtrl) (pid : Nat) (x y : DCtrl),
        natural_sort_key x.ref = natural_sort_key y.ref →
        [x, y].Sublist (l.filter fun c => c.parent = some pid) →
        [x, y].Sublist (childrenOf l pid)) := by
  refine ⟨?_, ⟨by decide, by decide⟩, ⟨by decide, by decide⟩, ?_⟩
  · intro a b h
    rw [← key_map_toLower a, ← key_map_toLower b, h]
  · intro l pid x y hk h
    apply sortLe_stable
    · unfold childLe
      rw [hk]
      unfold keyLtB
      rw [listLtB_self itemLtB itemLtB_irrefl]
      rfl
    · exact h

/-- Witness for `C10_key_not_injective` at `"AC-1"`/`"ac-1"` and a
two-row sibling list with equal keys. -/
theorem C10_key_not_injective_witness :
    natural_sort_key "AC-1".data = natural_sort_key "ac-1".data
    ∧ [(⟨1, "A".data, some 7⟩ : DCtrl), ⟨2, "a".data, some 7⟩].Sublist
        (childrenOf [⟨1, "A".data, some 7⟩, ⟨2, "a".data, some 7⟩] 7) :=
  ⟨C10_key_not_injective.1 "AC-1".data "ac-1".data (by decide),
    C10_key_not_injective.2.2.2 [⟨1, "A".data, some 7⟩, ⟨2, "a".data, some 7⟩] 7
      ⟨1, "A".data, some 7⟩ ⟨2, "a".data, some 7⟩ (by decide) (by decide)⟩

/-! ## Engine step lemmas -/

theorem map_eq_self_of_eq {f : α → α} {l : List α} (h : ∀ x ∈ l, f x = x) :
    l.map f = l := by
  rw [List.map_congr_left h]
  simp

/-- Parent assignment changes only `parent_id`. -/
theorem apFix_proj (cfg : EngineCfg) (l : List Control) (c : Control) :
    (assignParentsFix cfg l c).ref = c.ref
    ∧ (assignParentsFix cfg l c).id = c.id
    ∧ (assignParentsFix cfg l c).is_group = c.is_group
    ∧ (assignParentsFix cfg l c).level = c.level
    ∧ (assignParentsFix cfg l c).dorder = c.dorder := by
  unfold assignParentsFix
  cases hgp : cfg.getParent c.ref with
  | none => simp
  | some pref =>
    cases hcm : controlMapFind l pref with
    | none => simp [hcm]
    | some pid => simp [hcm]

/-- The `is_group`/`hierarchy_level` pass changes only those two columns. -/
theorem hierFix_proj (l : List Control) (c : Control) :
    (hierFix l c).ref = c.ref
    ∧ (hierFix l c).id = c.id
    ∧ (hierFix l c).parent = c.parent
    ∧ (hierFix l c).dorder = c.dorder := by
  unfold hierFix
  by_cases h1 : hasChildIn l c.id = true
  · rw [if_pos h1]
    by_cases h2 : c.is_group ≠ some true
    · rw [if_pos h2]; simp
    · rw [if_neg h2]; simp
  · rw [if_neg h1]
    by_cases h2 : (c.is_group = none ∨ c.is_group = some false) ∧ c.level = none
    · rw [if_pos h2]; simp
    · rw [if_neg h2]; simp

/-- The display pass changes only `display_order`. -/
theorem dispFix_proj (ups : List (Nat × Nat)) (c : Control) :
    (dispFix ups c).ref = c.ref
    ∧ (dispFix ups c).id = c.id
    ∧ (dispFix ups c).parent = c.parent
    ∧ (dispFix ups c).is_group = c.is_group
    ∧ (dispFix ups c).level = c.level := by
  unfold dispFix
  cases h : lookupLast ups c.id with
  | none => simp
  | some o => simp

theorem hasChildIn_map {l : List Control} {f : Control → Control}
    (hf : ∀ c, (f c).parent = c.parent) (i : Nat) :
    hasChildIn (l.map f) i = hasChildIn l i := by
  unfold hasChildIn
  rw [List.any_map]
  induction l with
  | nil => rfl
  | cons a t ih => simp [Function.comp, hf a, ih]

theorem controlMapFind_map {l : List Control} {f : Control → Control}
    (hf : ∀ c, (f c).ref = c.ref ∧ (f c).id = c.id) (r : List Char) :
    controlMapFind (l.map f) r = controlMapFind l r := by
  unfold controlMapFind
  rw [← List.map_reverse, List.find?_map]
  have hcongr : ∀ m : List Control, m.find? ((fun c => decide (c.ref = r)) ∘ f)
      = m.find? (fun c => decide (c.ref = r)) := by
    intro m
    induction m with
    | nil => rfl
    | cons a t ih => simp only [List.find?_cons, Function.comp, (hf a).1, ih]
  rw [hcongr]
  cases hfind : l.reverse.find? (fun c => decide (c.ref = r)) with
  | none => simp
  | some c => simp [(hf c).2]

/-! ## C2: is_group derivation is only partial -/

/-- C2 counterexample: a framework whose single node `"9"` was imported
with `is_group = true` and a set `hierarchy_level`; after a full engine
run it still has `is_group = true` although no node has it as parent —
the claimed equivalence (and in particular "childless groups get
`is_group = false`") fails, because the childless `UPDATE` skips rows
whose `hierarchy_level` is already set. -/
theorem C2_counterexample :
    ∃ c ∈ engineRun cisCfg
        [⟨1, "9".data, none, "imported".data, some true, some "domain".data, none⟩],
      c.is_group = some true
      ∧ hasChildIn (engineRun cisCfg
          [⟨1, "9".data, none, "imported".data, some true, some "domain".data, none⟩])
          c.id = false := by
  decide

/-- C2 amended: after `set_hierarchy_levels`, every node with a child has
`is_group = true`; a childless node is set to `is_group = false` only
when its `is_group` was not already true *and* its `hierarchy_level` was
unset — a childless node that already had `is_group = true` (e.g. a
synthesized or imported group that never received children) keeps
`is_group = true`, so the claimed equivalence holds only in the
child-to-group direction. -/
theorem C2_is_group_derivation :
    (∀ (l : List Control), ∀ c' ∈ setHierarchyLevels l,
      hasChildIn (setHierarchyLevels l) c'.id = true → c'.is_group = some true)
    ∧ (∀ (l : List Control) (c : Control),
        hasChildIn l c.id = false → (c.is_group = none ∨ c.is_group = some false) →
        c.level = none → (hierFix l c).is_group = some false)
    ∧ (∀ (l : List Control) (c : Control),
        hasChildIn l c.id = false → c.is_group = some true →
        (hierFix l c).is_group = some true) := by
  refine ⟨?_, ?_, ?_⟩
  · intro l c' hc' hchild
    obtain ⟨c, hc, rfl⟩ := List.mem_map.mp hc'
    have hch : hasChildIn l (hierFix l c).id = true := by
      rw [← hasChildIn_map (f := hierFix l) (fun d => (hierFix_proj l d).2.2.1)]
      exact hchild
    rw [(hierFix_proj l c).2.1] at hch
    unfold hierFix
    rw [if_pos hch]
    by_cases h2 : c.is_group ≠ some true
    · rw [if_pos h2]
    · rw [if_neg h2]
      simpa using h2
  · intro l c hch hig hlev
    unfold hierFix
    rw [if_neg (by simp [hch]), if_pos ⟨hig, hlev⟩]
  · intro l c hch hig
    unfold hierFix
    rw [if_neg (by simp [hch]), if_neg (by simp [hig])]
    exact hig

/-- Witness for `C2_is_group_derivation` on a two-node parent/child
framework and on a childless unset node. -/
theorem C2_is_group_derivation_witness :
    ((⟨1, "1".data, none, "g".data, some true,
        some (("section".data : List Char)), none⟩ : Control).is_group = some true)
    ∧ (hierFix [⟨1, "x".data, none, "d".data, none, none, none⟩]
        ⟨1, "x".data, none, "d".data, none, none, none⟩).is_group = some false := by
  constructor
  · have h := C2_is_group_derivation.1
      [⟨1, "1".data, none, "g".data, some true, some "section".data, none⟩,
        ⟨2, "1.1".data, some 1, "d".data, some false, some "control".data, none⟩]
    have hmem : (⟨1, "1".data, none, "g".data, some true, some "section".data, none⟩ : Control)
        ∈ setHierarchyLevels
          [⟨1, "1".data, none, "g".data, some true, some "section".data, none⟩,
            ⟨2, "1.1".data, some 1, "d".data, some false, some "control".data, none⟩] := by
      decide
    exact h _ hmem (by decide)
  · exact C2_is_group_derivation.2.1
      [⟨1, "x".data, none, "d".data, none, none, none⟩]
      ⟨1, "x".data, none, "d".data, none, none, none⟩
      (by decide) (by decide) (by decide)

/-! ## C7: unresolved parents are skipped, not nulled, and not warned -/

/-- C7 counterexample: node `AC-16(1)` has a stale `parent_id = 99` and
its inferred parent `AC-16` does not exist; the claim says the engine
leaves it parentless (`parent_id = None`) — instead the run completes
with the stale `parent_id = 99` untouched (and the scripts emit no
per-node warning; they only print update counts). -/
theorem C7_counterexample :
    engineRun nist80053Cfg [⟨1, "AC-16(1)".data, some 99, "d".data, none, none, none⟩]
      = [⟨1, "AC-16(1)".data, some 99, "d".data, some false, some "control".data, none⟩]
    ∧ get_parent_ref_nist_800_53 "AC-16(1)".data = some "AC-16".data := by
  constructor
  · decide
  · decide

/-- C7 amended: when a node's inferred parent ref has no corresponding
node even after synthesis, the engine *skips* that node's parent update —
the previous `parent_id` (stale or `None`) is left in place, no warning
is recorded for it, and the framework's run completes over the full node
set. -/
theorem C7_unresolved_parent_skipped :
    (∀ (cfg : EngineCfg) (l : List Control) (c : Control),
      (∀ pref, cfg.getParent c.ref = some pref → controlMapFind l pref = none) →
      assignParentsFix cfg l c = c)
    ∧ (∀ (cfg : EngineCfg) (l : List Control),
        (engineRun cfg l).length = l.length + (groupsToCreate cfg l).length) := by
  constructor
  · intro cfg l c h
    unfold assignParentsFix
    cases hgp : cfg.getParent c.ref with
    | none => simp [hgp]
    | some pref =>
      simp [hgp, h pref hgp]
  · intro cfg l
    unfold engineRun applyDisplay setHierarchyLevels assignParents synthStep
    simp

/-- Witness for `C7_unresolved_parent_skipped` at a node whose inferred
parent `AC-16` is missing. -/
theorem C7_unresolved_parent_skipped_witness :
    assignParentsFix nist80053Cfg []
        ⟨1, "AC-16(1)".data, some 99, "d".data, none, none, none⟩
      = ⟨1, "AC-16(1)".data, some 99, "d".data, none, none, none⟩
    ∧ (engineRun nist80053Cfg
        [⟨1, "AC-16(1)".data, some 99, "d".data, none, none, none⟩]).length
      = 1 + (groupsToCreate nist80053Cfg
          [⟨1, "AC-16(1)".data, some 99, "d".data, none, none, none⟩]).length :=
  ⟨C7_unresolved_parent_skipped.1 nist80053Cfg []
      ⟨1, "AC-16(1)".data, some 99, "d".data, none, none, none⟩
      (fun pref _ => by simp [controlMapFind]),
    by
      have h := C7_unresolved_parent_skipped.2 nist80053Cfg
        [⟨1, "AC-16(1)".data, some 99, "d".data, none, none, none⟩]
      simpa using h⟩

/-! ## C3: the engine is a fixed point after one run -/

theorem refsOf_map {l : List Control} {f : Control → Control}
    (hf : ∀ c, (f c).ref = c.ref) : refsOf (l.map f) = refsOf l := by
  unfold refsOf
  rw [List.map_map]
  exact List.map_congr_left fun c _ => hf c

theorem flatMap_refs (g : List Char → List (List Char)) (m : List Control) :
    (m.flatMap fun c => g c.ref) = (refsOf m).flatMap g := by
  unfold refsOf
  induction m with
  | nil => rfl
  | cons a t ih => simp [ih]

theorem groupsToCreate_congr (cfg : EngineCfg) {a b : List Control}
    (h : refsOf a = refsOf b) :
    groupsToCreate cfg a = groupsToCreate cfg b := by
  unfold groupsToCreate
  rw [flatMap_refs, flatMap_refs, h]

theorem synthStep_eq_self (cfg : EngineCfg) {m : List Control}
    (h : groupsToCreate cfg m = []) : synthStep cfg m = m := by
  unfold synthStep
  rw [h]
  simp

theorem set_parent_self (c : Control) : { c with parent := c.parent } = c := by
  cases c
  rfl

theorem projD_dispFix (u : List (Nat × Nat)) (c : Control) :
    projD (dispFix u c) = projD c := by
  obtain ⟨h1, h2, h3, -, -⟩ := dispFix_proj u c
  unfold projD
  rw [h1, h2, h3]

theorem dispFix_idem (u : List (Nat × Nat)) (c : Control) :
    dispFix u (dispFix u c) = dispFix u c := by
  unfold dispFix
  cases h : lookupLast u c.id with
  | none => simp [h]
  | some o => simp [h]

/-- C3 (confirmed): running the hierarchy assignment engine (group
synthesis, parent assignment, `is_group`/`hierarchy_level` derivation,
display-order assignment) a second time on its own output changes
nothing — under the one per-framework condition that the group rules are
closed after one synthesis pass (`groupsToCreate` of the synthesized set
is empty, as holds for the `FRAMEWORK_CONFIGS` rules, whose group refs do
not imply further groups). -/
theorem C3_engine_idempotent (cfg : EngineCfg) (l : List Control)
    (hcl : groupsToCreate cfg (synthStep cfg l) = []) :
    engineRun cfg (engineRun cfg l) = engineRun cfg l := by
  have apP := fun c => apFix_proj cfg (synthStep cfg l) c
  have hiP := fun c => hierFix_proj (assignParents cfg (synthStep cfg l)) c
  set S1 := synthStep cfg l with hS1def
  set S2 := assignParents cfg S1 with hS2def
  set S3 := setHierarchyLevels S2 with hS3def
  set ups := displayUpdates (S3.map projD) with hupsdef
  have hS4run : engineRun cfg l = S3.map (dispFix ups) := rfl
  set S4 := S3.map (dispFix ups) with hS4def
  have diP := fun c => dispFix_proj ups c
  -- reference codes survive every pass
  have hrefs : refsOf S4 = refsOf S1 := by
    rw [hS4def, refsOf_map fun c => (diP c).1,
      hS3def, setHierarchyLevels, refsOf_map fun c => (hiP c).1,
      hS2def, assignParents, refsOf_map fun c => (apP c).1]
  -- (id, ref) pairs survive every pass
  have hcm : ∀ r, controlMapFind S4 r = controlMapFind S1 r := by
    intro r
    rw [hS4def, controlMapFind_map fun c => ⟨(diP c).1, (diP c).2.1⟩,
      hS3def, setHierarchyLevels, controlMapFind_map fun c => ⟨(hiP c).1, (hiP c).2.1⟩,
      hS2def, assignParents, controlMapFind_map fun c => ⟨(apP c).1, (apP c).2.1⟩]
  -- children relations survive the last two passes
  have hchild : ∀ i, hasChildIn S4 i = hasChildIn S2 i := by
    intro i
    rw [hS4def, hasChildIn_map fun c => (diP c).2.2.1,
      hS3def, setHierarchyLevels, hasChildIn_map fun c => (hiP c).2.2.1]
  -- membership decomposition of the final state
  have hmem4 : ∀ c4 ∈ S4, ∃ c1 ∈ S1,
      c4 = dispFix ups (hierFix S2 (assignParentsFix cfg S1 c1)) := by
    intro c4 h4
    obtain ⟨c3, h3, rfl⟩ := List.mem_map.mp h4
    rw [hS3def, setHierarchyLevels] at h3
    obtain ⟨c2, h2, rfl⟩ := List.mem_map.mp h3
    rw [hS2def, assignParents] at h2
    obtain ⟨c1, h1, rfl⟩ := List.mem_map.mp h2
    exact ⟨c1, h1, rfl⟩
  -- pass 1 of the second run: nothing to synthesize
  have hsyn2 : synthStep cfg S4 = S4 := by
    apply synthStep_eq_self
    rw [groupsToCreate_congr cfg hrefs]
    exact hcl
  -- pass 2: every parent link is already in place
  have hasg2 : assignParents cfg S4 = S4 := by
    unfold assignParents
    apply map_eq_self_of_eq
    intro c4 h4
    obtain ⟨c1, h1, hc4⟩ := hmem4 c4 h4
    have href4 : c4.ref = c1.ref := by
      rw [hc4, (diP _).1, (hiP _).1, (apP c1).1]
    have hpar4 : c4.parent = (assignParentsFix cfg S1 c1).parent := by
      rw [hc4, (diP _).2.2.1, (hiP _).2.2.1]
    unfold assignParentsFix
    cases hgp : cfg.getParent c4.ref with
    | none => simp [hgp]
    | some pref =>
      have hgp1 : cfg.getParent c1.ref = some pref := by rw [← href4]; exact hgp
      cases hfind : controlMapFind S1 pref with
      | none =>
        have h4f : controlMapFind S4 pref = none := by rw [hcm pref, hfind]
        simp [hgp, h4f]
      | some pid =>
        have h4f : controlMapFind S4 pref = some pid := by rw [hcm pref, hfind]
        have hp2 : (assignParentsFix cfg S1 c1).parent = some pid := by
          unfold assignParentsFix
          simp [hgp1, hfind]
        rw [hp2] at hpar4
        simp only [hgp, h4f]
        rw [← hpar4]
  -- pass 3: is_group / hierarchy_level are stable
  have hhier2 : setHierarchyLevels S4 = S4 := by
    unfold setHierarchyLevels
    apply map_eq_self_of_eq
    intro c4 h4
    obtain ⟨c1, h1, hc4⟩ := hmem4 c4 h4
    set c2 := assignParentsFix cfg S1 c1 with hc2def
    have hid4 : c4.id = c2.id := by
      rw [hc4, (diP _).2.1, (hiP _).2.1]
    have hig4 : c4.is_group = (hierFix S2 c2).is_group := by
      rw [hc4, (diP _).2.2.2.1]
    have hlev4 : c4.level = (hierFix S2 c2).level := by
      rw [hc4, (diP _).2.2.2.2]
    unfold hierFix
    rw [hid4, hchild c2.id]
    cases hch : hasChildIn S2 c2.id with
    | true =>
      have hg : (hierFix S2 c2).is_group = some true := by
        unfold hierFix
        rw [if_pos hch]
        by_cases h2 : c2.is_group ≠ some true
        · rw [if_pos h2]
        · rw [if_neg h2]
          simpa using h2
      rw [if_pos rfl, if_neg (by rw [hig4, hg]; simp)]
    | false =>
      have hcond : ¬((c4.is_group = none ∨ c4.is_group = some false) ∧ c4.level = none) := by
        have hfix : hierFix S2 c2 = if (c2.is_group = none ∨ c2.is_group = some false) ∧ c2.level = none
            then { c2 with is_group := some false, level := some "control".data }
            else c2 := by
          unfold hierFix
          rw [if_neg (by simp [hch])]
        by_cases h2 : (c2.is_group = none ∨ c2.is_group = some false) ∧ c2.level = none
        · rw [if_pos h2] at hfix
          rw [hig4, hlev4, hfix]
          simp
        · rw [if_neg h2] at hfix
          rw [hig4, hlev4, hfix]
          exact h2
      rw [if_neg (by simp [hch]), if_neg hcond]
  -- pass 4: the display orders recompute identically
  have hproj4 : S4.map projD = S3.map projD := by
    rw [hS4def, List.map_map]
    exact List.map_congr_left fun c _ => projD_dispFix ups c
  have hdisp2 : applyDisplay S4 = S4 := by
    unfold applyDisplay
    rw [hproj4, ← hupsdef, hS4def, List.map_map]
    exact List.map_congr_left fun c _ => dispFix_idem ups c
  show applyDisplay (setHierarchyLevels (assignParents cfg (synthStep cfg (engineRun cfg l)))) = engineRun cfg l
  rw [hS4run, hsyn2, hasg2, hhier2, hdisp2]

/-- Witness for `C3_engine_idempotent`: the CIS configuration on a
framework holding the single control `1.1` (the run synthesizes group
`1`, links `1.1` under it, and a second run changes nothing). -/
theorem C3_engine_idempotent_witness :
    engineRun cisCfg (engineRun cisCfg
        [⟨1, "1.1".data, none, "d".data, none, none, none⟩])
      = engineRun cisCfg [⟨1, "1.1".data, none, "d".data, none, none, none⟩] :=
  C3_engine_idempotent cisCfg [⟨1, "1.1".data, none, "d".data, none, none, none⟩]
    (by decide)

/-! ## C1: the display-order sequencer emits a pre-order

Throughout, `rk` is a ranking function witnessing acyclicity of the
parent graph (children rank strictly above parents, ranks below the row
count), `hnd` says database ids are unique, and `hpar` that parent ids
resolve. -/

theorem insertLe_perm (le : α → α → Bool) (a : α) (s : List α) :
    (insertLe le a s).Perm (a :: s) := by
  induction s with
  | nil => simp [insertLe]
  | cons b bs ih =>
    unfold insertLe
    by_cases h : le a b = true
    · rw [if_pos h]
    · rw [if_neg h]
      exact (ih.cons b).trans (List.Perm.swap a b bs)

theorem sortLe_perm (le : α → α → Bool) (m : List α) : (sortLe le m).Perm m := by
  induction m with
  | nil => exact List.Perm.refl _
  | cons a t ih =>
    show (insertLe le a (sortLe le t)).Perm (a :: t)
    exact (insertLe_perm le a _).trans (ih.cons a)

theorem mem_sortLe_iff (le : α → α → Bool) {x : α} {m : List α} :
    x ∈ sortLe le m ↔ x ∈ m := (sortLe_perm le m).mem_iff

theorem mem_childrenOf {l : List DCtrl} {pid : Nat} {x : DCtrl} :
    x ∈ childrenOf l pid ↔ x ∈ l ∧ x.parent = some pid := by
  unfold childrenOf
  rw [mem_sortLe_iff, List.mem_filter]
  simp

theorem mem_rootsOf {l : List DCtrl} {x : DCtrl} :
    x ∈ rootsOf l ↔ x ∈ l ∧ x.parent = none := by
  unfold rootsOf
  rw [mem_sortLe_iff, List.mem_filter]
  simp

theorem nodup_childrenOf (l : List DCtrl) (pid : Nat) (hnd : l.Nodup) :
    (childrenOf l pid).Nodup :=
  ((sortLe_perm _ _).nodup_iff).mpr (hnd.filter _)

theorem nodup_rootsOf (l : List DCtrl) (hnd : l.Nodup) : (rootsOf l).Nodup :=
  ((sortLe_perm _ _).nodup_iff).mpr (hnd.filter _)

theorem traverseAux_append (cm : Nat → List DCtrl) :
    ∀ (fuel : Nat) (c : DCtrl) (acc : List DCtrl),
      traverseAux cm fuel c acc = acc ++ traverseAux cm fuel c [] := by
  intro fuel
  induction fuel with
  | zero => intro c acc; simp [traverseAux]
  | succ f ih =>
    have hfold : ∀ (cs : List DCtrl) (a b : List DCtrl),
        cs.foldl (fun acc ch => traverseAux cm f ch acc) (a ++ b)
          = a ++ cs.foldl (fun acc ch => traverseAux cm f ch acc) b := by
      intro cs
      induction cs with
      | nil => intro a b; rfl
      | cons x xs ihc =>
        intro a b
        show xs.foldl _ (traverseAux cm f x (a ++ b))
          = a ++ xs.foldl _ (traverseAux cm f x b)
        rw [ih x (a ++ b), ih x b, List.append_assoc, ihc]
    intro c acc
    show (cm c.id).foldl (fun acc ch => traverseAux cm f ch acc) (acc ++ [c])
      = acc ++ (cm c.id).foldl (fun acc ch => traverseAux cm f ch acc) ([] ++ [c])
    rw [hfold (cm c.id) acc [c], List.nil_append]

theorem foldl_traverse_flatMap (cm : Nat → List DCtrl) (f : Nat) :
    ∀ (cs : List DCtrl) (b : List DCtrl),
      cs.foldl (fun acc ch => traverseAux cm f ch acc) b
        = b ++ cs.flatMap fun ch => traverseAux cm f ch [] := by
  intro cs
  induction cs with
  | nil => intro b; simp
  | cons x xs ihc =>
    intro b
    show xs.foldl _ (traverseAux cm f x b) = _
    rw [ihc (traverseAux cm f x b), traverseAux_append cm f x b]
    simp

theorem traverseAux_succ_nil (cm : Nat → List DCtrl) (f : Nat) (c : DCtrl) :
    traverseAux cm (f + 1) c []
      = c :: (cm c.id).flatMap fun ch => traverseAux cm f ch [] := by
  show (cm c.id).foldl (fun acc ch => traverseAux cm f ch acc) ([] ++ [c]) = _
  rw [foldl_traverse_flatMap]
  simp

theorem visitOrder_eq (l : List DCtrl) :
    visitOrder l
      = (rootsOf l).flatMap fun r => traverseAux (childrenOf l) l.length r [] := by
  unfold visitOrder
  rw [foldl_traverse_flatMap]
  simp

theorem flatMap_sublist_of_mem {g : α → List β} {cs : List α} {x : α}
    (hx : x ∈ cs) : (g x).Sublist (cs.flatMap g) := by
  induction cs with
  | nil => simp at hx
  | cons a t ih =>
    rw [List.flatMap_cons]
    rcases List.mem_cons.mp hx with rfl | hx2
    · exact List.sublist_append_left _ _
    · exact (ih hx2).trans (List.sublist_append_right _ _)

theorem flatMap_nodup {g : α → List β} {cs : List α}
    (h1 : ∀ x ∈ cs, (g x).Nodup)
    (h2 : cs.Pairwise fun a b => ∀ y ∈ g a, y ∉ g b) :
    (cs.flatMap g).Nodup := by
  induction cs with
  | nil => simp
  | cons a t ih =>
    rw [List.flatMap_cons]
    apply List.Nodup.append (h1 a (List.mem_cons_self _ _))
      (ih (fun x hx => h1 x (List.mem_cons_of_mem _ hx)) (List.pairwise_cons.mp h2).2)
    intro y hy hy2
    obtain ⟨b, hb, hyb⟩ := List.mem_flatMap.mp hy2
    exact (List.pairwise_cons.mp h2).1 b hb y hy hyb

/-! ### Parent chains -/

theorem chain_mem_rank (l : List DCtrl) (rk : Nat → Nat)
    (hrk : ∀ c ∈ l, ∀ p ∈ l, c.parent = some p.id → rk p.id < rk c.id)
    {r x : DCtrl} {n : Nat} (hch : ChainN l r x n) (hr : r ∈ l) :
    x ∈ l ∧ rk r.id + n ≤ rk x.id := by
  revert hr
  induction hch with
  | refl c => intro hr; exact ⟨hr, Nat.le_refl _⟩
  | head hm hp ht ih =>
    intro hr
    obtain ⟨hx, hn⟩ := ih hm
    have hlt := hrk _ hm _ hr hp
    exact ⟨hx, by omega⟩

theorem chain_tail (l : List DCtrl) :
    ∀ {n : Nat} {r x : DCtrl}, ChainN l r x (n + 1) →
      ∃ w, ChainN l r w n ∧ x ∈ l ∧ x.parent = some w.id := by
  intro n
  induction n with
  | zero =>
    intro r x h
    cases h with
    | head hm hp ht =>
      cases ht
      exact ⟨r, ChainN.refl r, hm, hp⟩
  | succ n ih =>
    intro r x h
    cases h with
    | @head _ m _ _ hm hp ht =>
      obtain ⟨w, hw, hxl, hxp⟩ := ih ht
      exact ⟨w, ChainN.head hm hp hw, hxl, hxp⟩

theorem chain_snoc (l : List DCtrl) {r p x : DCtrl} {n : Nat}
    (h : ChainN l r p n) (hx : x ∈ l) (hpx : x.parent = some p.id) :
    ChainN l r x (n + 1) := by
  induction h with
  | refl c => exact ChainN.head hx hpx (ChainN.refl x)
  | head hm hp ht ih => exact ChainN.head hm hp (ih hpx)

/-- Two chains from distinct nodes with the same parent pointer cannot
meet: the reachable subtrees of distinct siblings (or distinct roots)
are disjoint, because every node has one parent and ranks increase
along chains. -/
theorem chain_merge (l : List DCtrl) (rk : Nat → Nat)
    (hnd : (l.map (·.id)).Nodup)
    (hpar : ∀ c ∈ l, ∀ pid, c.parent = some pid → ∃ p ∈ l, p.id = pid)
    (hrk : ∀ c ∈ l, ∀ p ∈ l, c.parent = some p.id → rk p.id < rk c.id)
    {c c' : DCtrl} (hc : c ∈ l) (hc' : c' ∈ l) (hne : c ≠ c')
    (hpp : c.parent = c'.parent) :
    ∀ (n : Nat) {n' : Nat} {x : DCtrl}, ChainN l c x n → ChainN l c' x n' → False := by
  intro n
  induction n using Nat.strong_induction_on with
  | _ n IH =>
    intro n' x h1 h2
    match n, n' with
    | 0, 0 =>
      cases h1; cases h2; exact hne rfl
    | 0, m' + 1 =>
      cases h1
      obtain ⟨w, hw, hxl, hxp⟩ := chain_tail l h2
      obtain ⟨hwl, hrank⟩ := chain_mem_rank l rk hrk hw hc'
      cases hcp : c'.parent with
      | none => rw [hpp, hcp] at hxp; simp at hxp
      | some pid =>
        have hwid : w.id = pid := by
          rw [hpp, hcp] at hxp
          exact (Option.some.inj hxp).symm
        obtain ⟨p, hp, hpid⟩ := hpar c' hc' pid hcp
        have hlt := hrk c' hc' p hp (by rw [hcp, hpid])
        rw [hpid, ← hwid] at hlt
        omega
    | m + 1, 0 =>
      cases h2
      obtain ⟨w, hw, hxl, hxp⟩ := chain_tail l h1
      obtain ⟨hwl, hrank⟩ := chain_mem_rank l rk hrk hw hc
      cases hcp : c.parent with
      | none => rw [← hpp, hcp] at hxp; simp at hxp
      | some pid =>
        have hwid : w.id = pid := by
          rw [← hpp, hcp] at hxp
          exact (Option.some.inj hxp).symm
        obtain ⟨p, hp, hpid⟩ := hpar c hc pid hcp
        have hlt := hrk c hc p hp (by rw [hcp, hpid])
        rw [hpid, ← hwid] at hlt
        omega
    | m + 1, m' + 1 =>
      obtain ⟨w, hw, hxl, hxp⟩ := chain_tail l h1
      obtain ⟨w', hw', hxl', hxp'⟩ := chain_tail l h2
      have hwl := (chain_mem_rank l rk hrk hw hc).1
      have hwl' := (chain_mem_rank l rk hrk hw' hc').1
      have hww : w = w' := by
        apply List.inj_on_of_nodup_map hnd hwl hwl'
        rw [hxp] at hxp'
        exact Option.some.inj hxp'
      subst hww
      exact IH m (by omega) hw hw'

/-! ### What the traversal emits -/

theorem traverse_reaches (l : List DCtrl) :
    ∀ (fuel : Nat) (r x : DCtrl), x ∈ traverseAux (childrenOf l) fuel r [] →
      ∃ n, ChainN l r x n := by
  intro fuel
  induction fuel with
  | zero => intro r x hx; simp [traverseAux] at hx
  | succ f ih =>
    intro r x hx
    rw [traverseAux_succ_nil] at hx
    rcases List.mem_cons.mp hx with rfl | hx2
    · exact ⟨0, ChainN.refl x⟩
    · obtain ⟨ch, hch, hx3⟩ := List.mem_flatMap.mp hx2
      obtain ⟨hchl, hchp⟩ := mem_childrenOf.mp hch
      obtain ⟨n, hn⟩ := ih ch x hx3
      exact ⟨n + 1, ChainN.head hchl hchp hn⟩

theorem traverse_covers (l : List DCtrl) {r x : DCtrl} {n : Nat}
    (hch : ChainN l r x n) :
    ∀ fuel : Nat, n < fuel → x ∈ traverseAux (childrenOf l) fuel r [] := by
  induction hch with
  | refl c =>
    intro fuel hf
    obtain ⟨f, rfl⟩ : ∃ f, fuel = f + 1 := ⟨fuel - 1, by omega⟩
    rw [traverseAux_succ_nil]
    exact List.mem_cons_self _ _
  | @head c m y k hm hp ht ih =>
    intro fuel hf
    obtain ⟨f, rfl⟩ : ∃ f, fuel = f + 1 := ⟨fuel - 1, by omega⟩
    rw [traverseAux_succ_nil]
    apply List.mem_cons_of_mem
    apply List.mem_flatMap.mpr
    exact ⟨m, mem_childrenOf.mpr ⟨hm, hp⟩, ih f (by omega)⟩

theorem traverse_pair (l : List DCtrl) {r c : DCtrl} {n : Nat}
    (hch : ChainN l r c n) :
    ∀ (d : DCtrl) (fuel : Nat), d ∈ l → d.parent = some c.id → n + 2 ≤ fuel →
      [c, d].Sublist (traverseAux (childrenOf l) fuel r []) := by
  induction hch with
  | refl c =>
    intro d fuel hd hdp hf
    obtain ⟨f, rfl⟩ : ∃ f, fuel = f + 1 := ⟨fuel - 1, by omega⟩
    rw [traverseAux_succ_nil]
    apply List.cons_sublist_cons.mpr
    apply List.singleton_sublist.mpr
    apply (flatMap_sublist_of_mem (mem_childrenOf.mpr ⟨hd, hdp⟩)).subset
    obtain ⟨f', rfl⟩ : ∃ f', f = f' + 1 := ⟨f - 1, by omega⟩
    rw [traverseAux_succ_nil]
    exact List.mem_cons_self _ _
  | @head c m y k hm hp ht ih =>
    intro d fuel hd hdp hf
    obtain ⟨f, rfl⟩ : ∃ f, fuel = f + 1 := ⟨fuel - 1, by omega⟩
    rw [traverseAux_succ_nil]
    apply List.Sublist.cons
    exact (ih d f hd hdp (by omega)).trans
      (flatMap_sublist_of_mem
        (g := fun ch => traverseAux (childrenOf l) f ch [])
        (mem_childrenOf.mpr ⟨hm, hp⟩))

theorem traverse_mem_l (l : List DCtrl) (rk : Nat → Nat)
    (hrk : ∀ c ∈ l, ∀ p ∈ l, c.parent = some p.id → rk p.id < rk c.id)
    {fuel : Nat} {r x : DCtrl} (hr : r ∈ l)
    (hx : x ∈ traverseAux (childrenOf l) fuel r []) : x ∈ l := by
  obtain ⟨n, hn⟩ := traverse_reaches l fuel r x hx
  exact (chain_mem_rank l rk hrk hn hr).1

theorem traverse_nodup (l : List DCtrl) (rk : Nat → Nat)
    (hnd : (l.map (·.id)).Nodup)
    (hpar : ∀ c ∈ l, ∀ pid, c.parent = some pid → ∃ p ∈ l, p.id = pid)
    (hrk : ∀ c ∈ l, ∀ p ∈ l, c.parent = some p.id → rk p.id < rk c.id) :
    ∀ (fuel : Nat) (r : DCtrl), r ∈ l →
      (traverseAux (childrenOf l) fuel r []).Nodup := by
  have hlnd : l.Nodup := List.Nodup.of_map _ hnd
  intro fuel
  induction fuel with
  | zero => intro r _; simp [traverseAux]
  | succ f ih =>
    intro r hr
    rw [traverseAux_succ_nil]
    apply List.nodup_cons.mpr
    constructor
    · intro hmem
      obtain ⟨ch, hch, hx3⟩ := List.mem_flatMap.mp hmem
      obtain ⟨hchl, hchp⟩ := mem_childrenOf.mp hch
      obtain ⟨n, hn⟩ := traverse_reaches l f ch r hx3
      have hcycle : ChainN l r r (n + 1) := ChainN.head hchl hchp hn
      have := (chain_mem_rank l rk hrk hcycle hr).2
      omega
    · apply flatMap_nodup
      · intro ch hch
        exact ih ch (mem_childrenOf.mp hch).1
      · apply List.Pairwise.imp_of_mem ?_ (nodup_childrenOf l r.id hlnd)
        intro a b ha hb hab y hya hyb
        obtain ⟨hal, hap⟩ := mem_childrenOf.mp ha
        obtain ⟨hbl, hbp⟩ := mem_childrenOf.mp hb
        obtain ⟨na, hna⟩ := traverse_reaches l f a y hya
        obtain ⟨nb, hnb⟩ := traverse_reaches l f b y hyb
        exact chain_merge l rk hnd hpar hrk hal hbl hab
          (by rw [hap, hbp]) na hna hnb

theorem visitOrder_nodup (l : List DCtrl) (rk : Nat → Nat)
    (hnd : (l.map (·.id)).Nodup)
    (hpar : ∀ c ∈ l, ∀ pid, c.parent = some pid → ∃ p ∈ l, p.id = pid)
    (hrk : ∀ c ∈ l, ∀ p ∈ l, c.parent = some p.id → rk p.id < rk c.id) :
    (visitOrder l).Nodup := by
  have hlnd : l.Nodup := List.Nodup.of_map _ hnd
  rw [visitOrder_eq]
  apply flatMap_nodup
  · intro r hr
    exact traverse_nodup l rk hnd hpar hrk _ r (mem_rootsOf.mp hr).1
  · apply List.Pairwise.imp_of_mem ?_ (nodup_rootsOf l hlnd)
    intro a b ha hb hab y hya hyb
    obtain ⟨hal, hap⟩ := mem_rootsOf.mp ha
    obtain ⟨hbl, hbp⟩ := mem_rootsOf.mp hb
    obtain ⟨na, hna⟩ := traverse_reaches l _ a y hya
    obtain ⟨nb, hnb⟩ := traverse_reaches l _ b y hyb
    exact chain_merge l rk hnd hpar hrk hal hbl hab
      (by rw [hap, hbp]) na hna hnb

theorem root_chain (l : List DCtrl) (rk : Nat → Nat)
    (hpar : ∀ c ∈ l, ∀ pid, c.parent = some pid → ∃ p ∈ l, p.id = pid)
    (hrk : ∀ c ∈ l, ∀ p ∈ l, c.parent = some p.id → rk p.id < rk c.id) :
    ∀ x ∈ l, ∃ r n, r ∈ l ∧ r.parent = none ∧ ChainN l r x n := by
  have key : ∀ (k : Nat) (x : DCtrl), x ∈ l → rk x.id = k →
      ∃ r n, r ∈ l ∧ r.parent = none ∧ ChainN l r x n := by
    intro k
    induction k using Nat.strong_induction_on with
    | _ k IH =>
      intro x hx hk
      cases hp : x.parent with
      | none => exact ⟨x, 0, hx, hp, ChainN.refl x⟩
      | some pid =>
        obtain ⟨p, hpl, hpid⟩ := hpar x hx pid hp
        have hxp : x.parent = some p.id := by rw [hp, hpid]
        have hlt : rk p.id < k := hk ▸ hrk x hx p hpl hxp
        obtain ⟨r, n, hr, hrn, hchain⟩ := IH (rk p.id) hlt p hpl rfl
        exact ⟨r, n + 1, hr, hrn, chain_snoc l hchain hx hxp⟩
  intro x hx
  exact key (rk x.id) x hx rfl

theorem visitOrder_covers (l : List DCtrl) (rk : Nat → Nat)
    (hpar : ∀ c ∈ l, ∀ pid, c.parent = some pid → ∃ p ∈ l, p.id = pid)
    (hrk : ∀ c ∈ l, ∀ p ∈ l, c.parent = some p.id → rk p.id < rk c.id)
    (hbd : ∀ c ∈ l, rk c.id < l.length) :
    ∀ x ∈ l, x ∈ visitOrder l := by
  intro x hx
  obtain ⟨r, n, hr, hrn, hchain⟩ := root_chain l rk hpar hrk x hx
  have hn : n < l.length := by
    have h1 := (chain_mem_rank l rk hrk hchain hr).2
    have h2 := hbd x hx
    omega
  rw [visitOrder_eq]
  apply List.mem_flatMap.mpr
  exact ⟨r, mem_rootsOf.mpr ⟨hr, hrn⟩, traverse_covers l hchain _ hn⟩

/-! ### From the visit sequence to display orders -/

theorem mem_displayUpdates {l : List DCtrl} {k i : Nat} :
    (k, i) ∈ displayUpdates l ↔
      ∃ h : k < (visitOrder l).length, ((visitOrder l).get ⟨k, h⟩).id = i := by
  unfold displayUpdates
  constructor
  · intro h
    obtain ⟨⟨k2, x⟩, hmem, heq⟩ := List.mem_map.mp h
    have hk : k2 = k := congrArg Prod.fst heq
    have hi : x.id = i := congrArg Prod.snd heq
    subst hk
    have hg : (visitOrder l)[k2]? = some x := List.mk_mem_enum_iff_getElem?.mp hmem
    obtain ⟨hlen, hx⟩ := List.getElem?_eq_some.mp hg
    refine ⟨hlen, ?_⟩
    rw [List.get_eq_getElem, hx, hi]
  · rintro ⟨hk, hid⟩
    apply List.mem_map.mpr
    refine ⟨(k, (visitOrder l).get ⟨k, hk⟩), ?_, ?_⟩
    case refine_2 =>
      show (k, ((visitOrder l).get ⟨k, hk⟩).id) = (k, i)
      rw [hid]
    apply List.mk_mem_enum_iff_getElem?.mpr
    rw [List.getElem?_eq_getElem hk]
    simp [List.get_eq_getElem]

theorem lookupLast_eq {ups : List (Nat × Nat)} {k i : Nat}
    (hmem : (k, i) ∈ ups) (huniq : ∀ k2, (k2, i) ∈ ups → k2 = k) :
    lookupLast ups i = some k := by
  unfold lookupLast
  cases hfind : ups.reverse.find? (fun u => u.2 = i) with
  | none =>
    exfalso
    have := List.find?_eq_none.mp hfind (k, i) (List.mem_reverse.mpr hmem)
    simp at this
  | some e =>
    have hpe : e.2 = i := by simpa using List.find?_some hfind
    have hme : e ∈ ups := List.mem_reverse.mp (List.mem_of_find?_eq_some hfind)
    have he2 : (e.1, i) ∈ ups := by
      rw [← hpe]
      exact hme
    have hk := huniq e.1 he2
    simp [hk]

theorem order_entry {l : List DCtrl} {i o : Nat}
    (h : assignedOrder l i = some o) : (o, i) ∈ displayUpdates l := by
  unfold assignedOrder lookupLast at h
  cases hfind : (displayUpdates l).reverse.find? (fun u => u.2 = i) with
  | none => rw [hfind] at h; simp at h
  | some e =>
    rw [hfind] at h
    have ho : e.1 = o := by simpa using h
    have hpe : e.2 = i := by simpa using List.find?_some hfind
    have hme : e ∈ displayUpdates l := List.mem_reverse.mp (List.mem_of_find?_eq_some hfind)
    rw [← ho, ← hpe]
    exact hme

/-- The final display orders are injective across distinct ids,
independent of any hypothesis on the node set. -/
theorem assignedOrder_inj (l : List DCtrl) (i j oi oj : Nat)
    (hi : assignedOrder l i = some oi) (hj : assignedOrder l j = some oj)
    (hij : i ≠ j) : oi ≠ oj := by
  intro hoo
  subst hoo
  obtain ⟨hleni, hgi⟩ := mem_displayUpdates.mp (order_entry hi)
  obtain ⟨hlenj, hgj⟩ := mem_displayUpdates.mp (order_entry hj)
  rw [hgi] at hgj
  exact hij hgj

theorem visitOrder_mem_l (l : List DCtrl) (rk : Nat → Nat)
    (hrk : ∀ c ∈ l, ∀ p ∈ l, c.parent = some p.id → rk p.id < rk c.id) :
    ∀ x ∈ visitOrder l, x ∈ l := by
  intro x hx
  rw [visitOrder_eq] at hx
  obtain ⟨r, hr, hx2⟩ := List.mem_flatMap.mp hx
  exact traverse_mem_l l rk hrk (mem_rootsOf.mp hr).1 hx2

theorem assignedOrder_get (l : List DCtrl) (rk : Nat → Nat)
    (hnd : (l.map (·.id)).Nodup)
    (hpar : ∀ c ∈ l, ∀ pid, c.parent = some pid → ∃ p ∈ l, p.id = pid)
    (hrk : ∀ c ∈ l, ∀ p ∈ l, c.parent = some p.id → rk p.id < rk c.id)
    (k : Nat) (hk : k < (visitOrder l).length) :
    assignedOrder l ((visitOrder l).get ⟨k, hk⟩).id = some k := by
  have hidnd : ((visitOrder l).map (·.id)).Nodup := by
    apply List.Nodup.map_on ?_ (visitOrder_nodup l rk hnd hpar hrk)
    intro x hx y hy hxy
    exact List.inj_on_of_nodup_map hnd (visitOrder_mem_l l rk hrk x hx)
      (visitOrder_mem_l l rk hrk y hy) hxy
  apply lookupLast_eq (mem_displayUpdates.mpr ⟨hk, rfl⟩)
  intro k2 hk2
  obtain ⟨hlen2, hid2⟩ := mem_displayUpdates.mp hk2
  have hmap : ∀ (m : Nat) (hm : m < (visitOrder l).length),
      ((visitOrder l).map (·.id)).get ⟨m, by simpa using hm⟩
        = ((visitOrder l).get ⟨m, hm⟩).id := by
    intro m hm
    simp [List.get_eq_getElem]
  have heq : ((visitOrder l).map (·.id)).get ⟨k2, by simpa using hlen2⟩
      = ((visitOrder l).map (·.id)).get ⟨k, by simpa using hk⟩ := by
    rw [hmap k2 hlen2, hmap k hk, hid2]
  have := (hidnd.get_inj_iff).mp heq
  simpa using this

theorem pair_sublist_positions {x y : α} :
    ∀ {L : List α}, [x, y].Sublist L →
      ∃ (i j : Nat) (hi : i < L.length) (hj : j < L.length),
        i < j ∧ L.get ⟨i, hi⟩ = x ∧ L.get ⟨j, hj⟩ = y := by
  intro L h
  induction L with
  | nil => simp at h
  | cons a t ih =>
    rcases List.sublist_cons_iff.mp h with h2 | ⟨r, hr, hrs⟩
    · obtain ⟨i, j, hi, hj, hij, hx, hy⟩ := ih h2
      exact ⟨i + 1, j + 1, by simpa using hi, by simpa using hj, by omega,
        by simpa using hx, by simpa using hy⟩
    · have hax : x = a := by
        have := congrArg (List.head? ·) hr
        simpa using this
      have hyr : r = [y] := by
        have := congrArg (List.tail ·) hr
        simpa using this.symm
      subst hyr
      have hyt : y ∈ t := List.singleton_sublist.mp hrs
      obtain ⟨⟨j, hj⟩, hy⟩ := List.get_of_mem hyt
      exact ⟨0, j + 1, by simp, by simpa using hj, by omega,
        by simpa using hax.symm, by simpa using hy⟩

/-- Immediate parent edges come out in order. -/
theorem edge_order_lt (l : List DCtrl) (rk : Nat → Nat)
    (hnd : (l.map (·.id)).Nodup)
    (hpar : ∀ c ∈ l, ∀ pid, c.parent = some pid → ∃ p ∈ l, p.id = pid)
    (hrk : ∀ c ∈ l, ∀ p ∈ l, c.parent = some p.id → rk p.id < rk c.id)
    (hbd : ∀ c ∈ l, rk c.id < l.length)
    {c d : DCtrl} (hc : c ∈ l) (hd : d ∈ l) (hdp : d.parent = some c.id)
    {oc od : Nat}
    (hoc : assignedOrder l c.id = some oc)
    (hod : assignedOrder l d.id = some od) : oc < od := by
  obtain ⟨r, n, hr, hrn, hchain⟩ := root_chain l rk hpar hrk c hc
  have hbound : n + 2 ≤ l.length := by
    have h1 := (chain_mem_rank l rk hrk hchain hr).2
    have h2 := hrk d hd c hc hdp
    have h3 := hbd d hd
    omega
  have htr := traverse_pair l hchain d l.length hd hdp hbound
  have hsub : (traverseAux (childrenOf l) l.length r []).Sublist (visitOrder l) := by
    rw [visitOrder_eq]
    exact flatMap_sublist_of_mem
      (g := fun rt => traverseAux (childrenOf l) l.length rt [])
      (mem_rootsOf.mpr ⟨hr, hrn⟩)
  obtain ⟨i, j, hi, hj, hij, hic, hjd⟩ := pair_sublist_positions (htr.trans hsub)
  have h1 : assignedOrder l c.id = some i := by
    rw [← hic]
    exact assignedOrder_get l rk hnd hpar hrk i hi
  have h2 : assignedOrder l d.id = some j := by
    rw [← hjd]
    exact assignedOrder_get l rk hnd hpar hrk j hj
  rw [h1] at hoc
  rw [h2] at hod
  have hoc2 := Option.some.inj hoc
  have hod2 := Option.some.inj hod
  omega

/-- C1 (confirmed): after the display-order sequencer runs on a
framework whose rows have unique ids, resolvable parents and an acyclic
parent graph (witnessed by a ranking function `rk` bounded by the row
count), every node is assigned a display order, the assigned orders are
injective across distinct ids, and every node's order is strictly below
the order of each of its descendants. -/
theorem C1_display_preorder (l : List DCtrl) (rk : Nat → Nat)
    (hnd : (l.map (·.id)).Nodup)
    (hpar : ∀ c ∈ l, ∀ pid, c.parent = some pid → ∃ p ∈ l, p.id = pid)
    (hrk : ∀ c ∈ l, ∀ p ∈ l, c.parent = some p.id → rk p.id < rk c.id)
    (hbd : ∀ c ∈ l, rk c.id < l.length) :
    (∀ c ∈ l, ∃ o, assignedOrder l c.id = some o)
    ∧ (∀ i j oi oj, assignedOrder l i = some oi → assignedOrder l j = some oj →
        i ≠ j → oi ≠ oj)
    ∧ (∀ c ∈ l, ∀ d ∈ l, Descendant l c d → ∀ oc od,
        assignedOrder l c.id = some oc → assignedOrder l d.id = some od →
        oc < od) := by
  have hassigned : ∀ c ∈ l, ∃ o, assignedOrder l c.id = some o := by
    intro c hc
    obtain ⟨⟨k, hk⟩, hget⟩ :=
      List.get_of_mem (visitOrder_covers l rk hpar hrk hbd c hc)
    exact ⟨k, by rw [← hget]; exact assignedOrder_get l rk hnd hpar hrk k hk⟩
  refine ⟨hassigned, fun i j oi oj hi hj hij => assignedOrder_inj l i j oi oj hi hj hij, ?_⟩
  have aux : ∀ (n : Nat) (c d : DCtrl), c ∈ l → d ∈ l → ChainN l c d (n + 1) →
      ∀ oc od, assignedOrder l c.id = some oc → assignedOrder l d.id = some od →
        oc < od := by
    intro n
    induction n with
    | zero =>
      intro c d hc hd hch oc od hoc hod
      cases hch with
      | @head _ m _ _ hm hp ht =>
        cases ht
        exact edge_order_lt l rk hnd hpar hrk hbd hc hd hp hoc hod
    | succ n ih =>
      intro c d hc hd hch oc od hoc hod
      cases hch with
      | @head _ m _ _ hm hp ht =>
        obtain ⟨om, hom⟩ := hassigned m hm
        have h1 := edge_order_lt l rk hnd hpar hrk hbd hc hm hp hoc hom
        have h2 := ih m d hm hd ht om od hom hod
        omega
  intro c hc d hd hdesc oc od hoc hod
  obtain ⟨n, hch⟩ := hdesc
  exact aux n c d hc hd hch oc od hoc hod

/-- Witness for `C1_display_preorder` on the two-node framework
`{1 ↦ "1" (root), 2 ↦ "1.1" (child of 1)}` with rank `id - 1`:
the parent's order is strictly below the child's, and the two orders
differ. -/
theorem C1_display_preorder_witness :
    (0 : Nat) ≠ 1 ∧ (0 : Nat) < 1 := by
  have h := C1_display_preorder
    [⟨1, "1".data, none⟩, ⟨2, "1.1".data, some 1⟩] (fun i => i - 1)
    (by decide)
    (by decide)
    (by decide)
    (by decide)
  refine ⟨h.2.1 1 2 0 1 (by decide) (by decide) (by decide), ?_⟩
  exact h.2.2 ⟨1, "1".data, none⟩ (by decide) ⟨2, "1.1".data, some 1⟩ (by decide)
    ⟨0, ChainN.head (by decide) (by decide)
      (ChainN.refl ⟨2, "1.1".data, some 1⟩)⟩
    0 1 (by decide) (by decide)

end GRC
